import Mathlib

/-!
Shallow embedding of maidsafe/lru_time_cache (src/lib.rs).

The cache couples a `BTreeMap<Key, (Value, Instant)>` (here: a key-sorted
association list `MapT`) with a `VecDeque<Key>` recency queue (here: a
`List`, head = front = least recently touched).  `Instant` and `Duration`
are modelled as `Nat` (monotone clock ticks); every operation that calls
`Instant::now()` takes the current time `now : Nat` as an explicit argument.

Rust panics (`assert!`, out-of-range `VecDeque::drain`, indexing a
`BTreeMap` by an absent key) are modelled by returning `none` from the
operations that contain such a site; operations without a panic site are
total functions.
-/

namespace LruTimeCache

/-- `BTreeMap<Key, (Value, Instant)>` as a key-sorted association list. -/
abbrev MapT (α β : Type) := List (α × β × Nat)

variable {α β : Type} [LinearOrder α]

/-- `BTreeMap::get`: the entry stored under `k`, if any. -/
def mapGet : MapT α β → α → Option (β × Nat)
  | [], _ => none
  | (a, v, t) :: rest, k => if k = a then some (v, t) else mapGet rest k

/-- `BTreeMap::insert`: store `(v, t)` under `k`, keeping the list key-sorted,
and return the previous entry under `k` (if any) together with the new map. -/
def mapInsert : MapT α β → α → β → Nat → Option (β × Nat) × MapT α β
  | [], k, v, t => (none, [(k, v, t)])
  | (a, w, s) :: rest, k, v, t =>
    if k < a then (none, (k, v, t) :: (a, w, s) :: rest)
    else if k = a then (some (w, s), (k, v, t) :: rest)
    else
      let res := mapInsert rest k v t
      (res.1, (a, w, s) :: res.2)

/-- `BTreeMap::remove`: remove the entry under `k`, returning it (if any)
together with the new map. -/
def mapRemove : MapT α β → α → Option (β × Nat) × MapT α β
  | [], _ => (none, [])
  | (a, v, t) :: rest, k =>
    if k = a then (some (v, t), rest)
    else
      let res := mapRemove rest k
      (res.1, (a, v, t) :: res.2)

/-- The in-place timestamp update `entry.1 = now` performed on the entry
stored under `k` (used by `get_mut` and the touching iterators). -/
def mapSetTime : MapT α β → α → Nat → MapT α β
  | [], _, _ => []
  | (a, v, t) :: rest, k, now =>
    if k = a then (a, v, now) :: rest else (a, v, t) :: mapSetTime rest k now

/-- The keys of the map, in storage (ascending) order. -/
def mapKeys (m : MapT α β) : List α := m.map (fun e => e.1)

/-- `usize::MAX`, the unbounded-capacity sentinel used by
`with_expiry_duration`. -/
def usizeMax : Nat := 2 ^ 64 - 1

/-- The `LruCache` struct: value store, recency queue (head = front),
capacity and optional time-to-live. -/
structure Cache (α β : Type) where
  map : MapT α β
  list : List α
  capacity : Nat
  ttl : Option Nat
deriving Repr, DecidableEq

/-- `LruCache::with_capacity`. -/
def withCapacity (cap : Nat) : Cache α β :=
  { map := [], list := [], capacity := cap, ttl := none }

/-- `LruCache::with_expiry_duration`. -/
def withExpiryDuration (d : Nat) : Cache α β :=
  { map := [], list := [], capacity := usizeMax, ttl := some d }

/-- `LruCache::with_expiry_duration_and_capacity`. -/
def withExpiryDurationAndCapacity (d cap : Nat) : Cache α β :=
  { map := [], list := [], capacity := cap, ttl := some d }

/-- The loop body of `remove_expired`: walk the queue from the front,
collecting the values of entries with `t + ttl < now` and removing them
from the map, stopping at the first non-expired entry.  The source indexes
the map by `map[key]`, which panics when the key is absent: that case is
`none`. -/
def sweepLoop : MapT α β → List α → Nat → Nat → Option (List β × MapT α β)
  | m, [], _, _ => some ([], m)
  | m, k :: rest, d, now =>
    match mapGet m k with
    | none => none
    | some (v, t) =>
      if t + d ≥ now then some ([], m)
      else
        match sweepLoop (mapRemove m k).2 rest d now with
        | none => none
        | some (vs, m2) => some (v :: vs, m2)

/-- `LruCache::remove_expired`: when a TTL is set, removes the expired
entries and returns them (front-to-back) paired with their keys; otherwise
clears the queue when the map is empty. -/
def removeExpired (c : Cache α β) (now : Nat) :
    Option (List (α × β) × Cache α β) :=
  match c.ttl with
  | some d =>
    match sweepLoop c.map c.list d now with
    | none => none
    | some (vs, m2) =>
      some ((c.list.take vs.length).zip vs,
        { c with map := m2, list := c.list.drop vs.length })
  | none =>
    if c.map.isEmpty then some ([], { c with list := [] })
    else some ([], c)

/-- `LruCache::update_key`: move `key` in the recency queue to the back. -/
def updateKey (l : List α) (k : α) : List α :=
  match l.findIdx? (fun x => x = k) with
  | some pos => l.eraseIdx pos ++ [k]
  | none => l

/-- `assert!(map.remove(&key).is_some())` folded over the drained keys of
`remove_lru`: `none` models the assertion failure. -/
def removeKeys : MapT α β → List α → Option (MapT α β)
  | m, [] => some m
  | m, k :: rest =>
    match mapRemove m k with
    | (none, _) => none
    | (some _, m2) => removeKeys m2 rest

/-- `LruCache::remove_lru`: when the store holds at least `capacity`
entries, drain `..=map.len() - capacity` from the queue front and remove
each drained key from the map.  `VecDeque::drain` panics when the range end
exceeds the queue length: that case is `none`. -/
def removeLru (c : Cache α β) : Option (Cache α β) :=
  if c.map.length ≥ c.capacity then
    let cnt := c.map.length - c.capacity + 1
    if cnt ≤ c.list.length then
      match removeKeys c.map (c.list.take cnt) with
      | none => none
      | some m2 => some { c with map := m2, list := c.list.drop cnt }
    else none
  else some c

/-- `LruCache::notify_insert`: expiry sweep, then either re-touch an
existing key or capacity-evict and append a new key, then store
`(value, now)`.  Returns (previous value, expired pairs) and the new
cache. -/
def notifyInsert (c : Cache α β) (k : α) (v : β) (now : Nat) :
    Option ((Option β × List (α × β)) × Cache α β) :=
  match removeExpired c now with
  | none => none
  | some (expired, c1) =>
    match
      (if (mapGet c1.map k).isSome then
        some { c1 with list := updateKey c1.list k }
      else
        match removeLru c1 with
        | none => none
        | some c2 => some { c2 with list := c2.list ++ [k] }) with
    | none => none
    | some c2 =>
      let res := mapInsert c2.map k v now
      some ((res.1.map (fun p => p.1), expired), { c2 with map := res.2 })

/-- `LruCache::insert` (drops the expired-entries notification). -/
def insertOp (c : Cache α β) (k : α) (v : β) (now : Nat) :
    Option (Option β × Cache α β) :=
  match notifyInsert c k v now with
  | none => none
  | some (r, c2) => some (r.1, c2)

/-- `LruCache::remove`: remove `k` from the map and, when it was present,
also from the queue.  No sweep, no panic site. -/
def removeOp (c : Cache α β) (k : α) : Option β × Cache α β :=
  match mapRemove c.map k with
  | (none, _) => (none, c)
  | (some (v, _), m2) =>
    let l2 :=
      match c.list.findIdx? (fun x => x = k) with
      | some pos => c.list.eraseIdx pos
      | none => c.list
    (some v, { c with map := m2, list := l2 })

/-- `LruCache::clear`. -/
def clearOp (c : Cache α β) : Cache α β :=
  { c with map := [], list := [] }

/-- `LruCache::notify_get_mut` (and thus `get`, `get_mut`, `notify_get`):
expiry sweep, then on a hit move the key to the queue back and refresh its
timestamp to `now`. -/
def notifyGet (c : Cache α β) (k : α) (now : Nat) :
    Option ((Option β × List (α × β)) × Cache α β) :=
  match removeExpired c now with
  | none => none
  | some (expired, c1) =>
    match mapGet c1.map k with
    | none => some ((none, expired), c1)
    | some (v, _) =>
      some ((some v, expired),
        { c1 with list := updateKey c1.list k, map := mapSetTime c1.map k now })

/-- `LruCache::peek`: read-only lookup that checks expiry of the single
entry (`t + ttl >= now` keeps it) and mutates nothing (the Rust signature
takes `&self`). -/
def peek (c : Cache α β) (k : α) (now : Nat) : Option β :=
  match mapGet c.map k with
  | none => none
  | some (v, t) =>
    match c.ttl with
    | none => some v
    | some d => if t + d ≥ now then some v else none

/-- `LruCache::contains_key`. -/
def containsKey (c : Cache α β) (k : α) (now : Nat) : Bool :=
  (peek c k now).isSome

/-- `LruCache::len`: number of non-expired entries, computed as
`map.len() - position of first non-expired queue entry`. -/
def lenOp (c : Cache α β) (now : Nat) : Nat :=
  match c.ttl with
  | none => c.list.length
  | some d =>
    match (c.list.filterMap (fun k => mapGet c.map k)).findIdx?
        (fun e => e.2 + d ≥ now) with
    | none => 0
    | some p => c.map.length - p

/-- `LruCache::is_empty`: true iff the queue-back entry is absent or
expired. -/
def isEmptyOp (c : Cache α β) (now : Nat) : Bool :=
  match c.ttl with
  | none => c.list.isEmpty
  | some d =>
    match c.list.getLast? with
    | none => true
    | some k =>
      match mapGet c.map k with
      | none => true
      | some (_, t) => t + d < now

/-- The state of a touching iterator (`Iter` / `NotifyIter`): the borrowed
map and queue, the cache TTL and the cursor `item_index`. -/
structure IterSt (α β : Type) where
  map : MapT α β
  list : List α
  ttl : Option Nat
  idx : Nat
deriving Repr, DecidableEq

/-- The loop of `Iter::next_unexpired`, structurally recursive on the
cursor (which the source decrements on every iteration): detach the key at
the cursor from the queue and either return it (not expired) or remove it
from the map and continue. -/
def nextUnexpiredGo (m : MapT α β) (l : List α) (ttl : Option Nat)
    (now : Nat) : Nat → Option α × IterSt α β
  | 0 => (none, ⟨m, l, ttl, 0⟩)
  | i + 1 =>
    match l[i]? with
    | none => (none, ⟨m, l, ttl, i⟩)
    | some k =>
      let l2 := l.eraseIdx i
      match mapGet m k with
      | none => (none, ⟨m, l2, ttl, i⟩)
      | some (_, t) =>
        match ttl with
        | none => (some k, ⟨m, l2, ttl, i⟩)
        | some d =>
          if t + d > now then (some k, ⟨m, l2, ttl, i⟩)
          else nextUnexpiredGo (mapRemove m k).2 l2 ttl now i

/-- `Iter::next_unexpired`. -/
def iterNextUnexpired (s : IterSt α β) (now : Nat) : Option α × IterSt α β :=
  nextUnexpiredGo s.map s.list s.ttl now s.idx

/-- `Iter::next`: fetch the next unexpired key, re-append it to the queue
back and refresh its timestamp to `now`. -/
def iterNext (s : IterSt α β) (now : Nat) : Option (α × β) × IterSt α β :=
  match iterNextUnexpired s now with
  | (none, s1) => (none, s1)
  | (some k, s1) =>
    let l2 := s1.list ++ [k]
    match mapGet s1.map k with
    | none => (none, { s1 with list := l2 })
    | some (v, _) =>
      (some (k, v), { s1 with list := l2, map := mapSetTime s1.map k now })

/-- An item produced by `NotifyIter`. -/
inductive TimedEntry (α β : Type) where
  | valid (k : α) (v : β)
  | expired (k : α) (v : β)
deriving Repr, DecidableEq

/-- `NotifyIter::next`: like `Iter::next` but an expired entry is removed
from the map and yielded as `expired` instead of being skipped. -/
def notifyIterNext (s : IterSt α β) (now : Nat) :
    Option (TimedEntry α β) × IterSt α β :=
  match s.idx with
  | 0 => (none, s)
  | i + 1 =>
    let s1 : IterSt α β := { s with idx := i }
    match s1.list[i]? with
    | none => (none, s1)
    | some k =>
      let s2 : IterSt α β := { s1 with list := s1.list.eraseIdx i }
      match mapGet s2.map k with
      | none => (none, s2)
      | some (v, t) =>
        if ∃ d, s2.ttl = some d ∧ t + d ≤ now then
          (some (.expired k v), { s2 with map := (mapRemove s2.map k).2 })
        else
          (some (.valid k v),
            { s2 with list := s2.list ++ [k], map := mapSetTime s2.map k now })

/-- `LruCache::iter`: runs the full expiry sweep (discarding its result)
and hands out an `Iter` whose cursor starts at the queue length. -/
def iterNew (c : Cache α β) (now : Nat) : Option (IterSt α β) :=
  match removeExpired c now with
  | none => none
  | some (_, c1) =>
    some { map := c1.map, list := c1.list, ttl := c1.ttl, idx := c1.list.length }

/-- `LruCache::notify_iter`: hands out a `NotifyIter` directly, mutating
nothing. -/
def notifyIterNew (c : Cache α β) : IterSt α β :=
  { map := c.map, list := c.list, ttl := c.ttl, idx := c.list.length }

/-- The cache obtained by dropping an iterator: the (possibly mutated)
borrowed map and queue, with the original capacity and TTL. -/
def iterDrop (s : IterSt α β) (cap : Nat) : Cache α β :=
  { map := s.map, list := s.list, capacity := cap, ttl := s.ttl }

/-- Collect a touching iterator to a list (fuel-driven; `fuel = idx`
suffices since each `next` strictly decreases the cursor). -/
def iterCollect (s : IterSt α β) (now : Nat) : Nat → List (α × β)
  | 0 => []
  | fuel + 1 =>
    match iterNext s now with
    | (none, _) => []
    | (some kv, s1) => kv :: iterCollect s1 now fuel

/-- One `PeekIter::next` of lib.rs: advance the borrowed `BTreeMap`
iterator (`rem` is its remaining key-ascending entry list) to the first
entry with `t + ttl > now`, yielding it. -/
def peekIterNext (rem : MapT α β) (ttl : Option Nat) (now : Nat) :
    Option ((α × β) × MapT α β) :=
  match rem with
  | [] => none
  | (k, v, t) :: rest =>
    match ttl with
    | none => some ((k, v), rest)
    | some d =>
      if t + d > now then some ((k, v), rest) else peekIterNext rest ttl now

/-- Collect `LruCache::peek_iter` (lib.rs) to a list by iterating
`peekIterNext` from `map.iter()`. -/
def peekIterCollectAux (rem : MapT α β) (ttl : Option Nat) (now : Nat) :
    Nat → List (α × β)
  | 0 => []
  | fuel + 1 =>
    match peekIterNext rem ttl now with
    | none => []
    | some (kv, rest) => kv :: peekIterCollectAux rest ttl now fuel

/-- All items yielded by `LruCache::peek_iter` in order. -/
def peekIterCollect (c : Cache α β) (now : Nat) : List (α × β) :=
  peekIterCollectAux c.map c.ttl now (c.map.length + 1)

/-- The timestamps stored along the queue, front to back. -/
def stamps (m : MapT α β) (l : List α) : List Nat :=
  l.filterMap (fun k => (mapGet m k).map (fun p => p.2))

/-- Expiry test of the single entry stored under `k`:
`LastTouched + time_to_live < now`. -/
def expiredB (m : MapT α β) (d now : Nat) (k : α) : Bool :=
  match mapGet m k with
  | some (_, t) => decide (t + d < now)
  | none => false

/-- The structural invariant coupling the value store and the recency
queue: the map is key-sorted, the queue is duplicate-free, queue membership
coincides with map membership, every stored timestamp is at most the time
`T` of the last completed operation, and the timestamps are non-decreasing
from queue front to back. -/
structure StoreInv (m : MapT α β) (l : List α) (T : Nat) : Prop where
  sorted : List.Pairwise (fun e f => e.1 < f.1) m
  nodup : l.Nodup
  mem_iff : ∀ k, k ∈ l ↔ (mapGet m k).isSome = true
  stamp_le : ∀ e ∈ m, e.2.2 ≤ T
  mono : List.Pairwise (fun a b : Nat => a ≤ b) (stamps m l)

/-- The whole-cache invariant: the store invariant plus the capacity
bound. -/
def CacheInv (c : Cache α β) (T : Nat) : Prop :=
  StoreInv c.map c.list T ∧ c.map.length ≤ c.capacity

/-- The mid-`next` state of a touching iterator: key `k` has been detached
from the queue (`next_unexpired` removed it) but is still stored in the
map; every other coupling fact still holds. -/
structure DetachedInv (m : MapT α β) (l : List α) (k : α) (T : Nat) : Prop where
  sorted : List.Pairwise (fun e f => e.1 < f.1) m
  nodup : l.Nodup
  knotin : k ∉ l
  mem_iff : ∀ x, (x ∈ l ∨ x = k) ↔ (mapGet m x).isSome = true
  stamp_le : ∀ e ∈ m, e.2.2 ≤ T
  mono : List.Pairwise (fun a b : Nat => a ≤ b) (stamps m l)
  self : ∃ v t, mapGet m k = some (v, t)

/-- Zero or more `Iter::next` calls at monotonically non-decreasing
times. -/
inductive IterSteps : IterSt α β → Nat → IterSt α β → Nat → Prop where
  | refl (s : IterSt α β) (T : Nat) : IterSteps s T s T
  | step {s : IterSt α β} {T : Nat} {s1 : IterSt α β} {T1 now : Nat} :
      IterSteps s T s1 T1 → T1 ≤ now → IterSteps s T (iterNext s1 now).2 now

/-- Zero or more `NotifyIter::next` calls at monotonically non-decreasing
times. -/
inductive NotifyIterSteps : IterSt α β → Nat → IterSt α β → Nat → Prop where
  | refl (s : IterSt α β) (T : Nat) : NotifyIterSteps s T s T
  | step {s : IterSt α β} {T : Nat} {s1 : IterSt α β} {T1 now : Nat} :
      NotifyIterSteps s T s1 T1 → T1 ≤ now →
      NotifyIterSteps s T (notifyIterNext s1 now).2 now

/-- The reachable cache states, paired with the time of the last completed
operation (`Instant::now()` is monotone, so each operation runs at a time
at least that of the previous one).  A state is reachable when it arises
from a constructor followed by any sequence of public operations,
including the state left behind by a completed or dropped (possibly
partial) touching or notifying traversal. -/
inductive Reachable : Cache α β → Nat → Prop where
  | capacity (cap : Nat) : Reachable (withCapacity cap) 0
  | expiry (d : Nat) : Reachable (withExpiryDuration d) 0
  | expiryCapacity (d cap : Nat) : Reachable (withExpiryDurationAndCapacity d cap) 0
  | insert {c : Cache α β} {T : Nat} (k : α) (v : β) {now : Nat}
      {r : Option β × List (α × β)} {c2 : Cache α β} :
      Reachable c T → T ≤ now → notifyInsert c k v now = some (r, c2) →
      Reachable c2 now
  | get {c : Cache α β} {T : Nat} (k : α) {now : Nat}
      {r : Option β × List (α × β)} {c2 : Cache α β} :
      Reachable c T → T ≤ now → notifyGet c k now = some (r, c2) →
      Reachable c2 now
  | remove {c : Cache α β} {T : Nat} (k : α) :
      Reachable c T → Reachable (removeOp c k).2 T
  | clearStep {c : Cache α β} {T : Nat} :
      Reachable c T → Reachable (clearOp c) T
  | iterRun {c : Cache α β} {T now : Nat} {e : List (α × β)} {c1 : Cache α β}
      {s2 : IterSt α β} {T2 : Nat} :
      Reachable c T → T ≤ now → removeExpired c now = some (e, c1) →
      IterSteps (notifyIterNew c1) now s2 T2 →
      Reachable (iterDrop s2 c.capacity) T2
  | notifyIterRun {c : Cache α β} {T : Nat} {s2 : IterSt α β} {T2 : Nat} :
      Reachable c T → NotifyIterSteps (notifyIterNew c) T s2 T2 →
      Reachable (iterDrop s2 c.capacity) T2

/-- A sequence of `insert` calls, all at the same time `now` (used for the
touch-renews property). -/
def insertAll (c : Cache α β) (kvs : List (α × β)) (now : Nat) :
    Option (Cache α β) :=
  match kvs with
  | [] => some c
  | (k, v) :: rest =>
    match insertOp c k v now with
    | none => none
    | some (_, c2) => insertAll c2 rest now

/-- No entry of the store is expired at `now`. -/
def NoExpired (m : MapT α β) (ttl : Option Nat) (now : Nat) : Prop :=
  ∀ e ∈ m, ∀ d, ttl = some d → now ≤ e.2.2 + d

/-- Concrete state: `with_capacity 3` after `insert(1, 10)` and
`insert(2, 20)` at time 0 (used to exercise theorems about reachable
states). -/
def exCacheA : Cache Nat Nat :=
  { map := [(1, 10, 0), (2, 20, 0)], list := [1, 2], capacity := 3, ttl := none }

/-- Concrete state: `with_expiry_duration 100` after `insert(1, 10)` at
time 0 and `insert(2, 20)` at time 5. -/
def exCacheB : Cache Nat Nat :=
  { map := [(1, 10, 0), (2, 20, 5)], list := [1, 2], capacity := usizeMax,
    ttl := some 100 }

/-- Concrete state: `with_capacity 2` after `insert(5, 50)` at time 0 and
`insert(6, 60)` at time 1. -/
def exCacheC : Cache Nat Nat :=
  { map := [(5, 50, 0), (6, 60, 1)], list := [5, 6], capacity := 2, ttl := none }

/-- Concrete state: `with_capacity 1` after `insert(5, 50)` at time 0. -/
def exCacheD : Cache Nat Nat :=
  { map := [(5, 50, 0)], list := [5], capacity := 1, ttl := none }

/-! ### Lemmas about the map primitives -/

theorem mapGet_isSome_iff {m : MapT α β} {k : α} :
    (mapGet m k).isSome = true ↔ k ∈ mapKeys m := by
  induction m with
  | nil => simp [mapGet, mapKeys]
  | cons e rest ih =>
    obtain ⟨a, v, t⟩ := e
    by_cases h : k = a
    · subst h; simp [mapGet, mapKeys]
    · simp [mapGet, mapKeys, h, ih, mapKeys]

theorem mapGet_eq_none_iff {m : MapT α β} {k : α} :
    mapGet m k = none ↔ k ∉ mapKeys m := by
  rw [← mapGet_isSome_iff, Option.isSome_iff_exists]
  cases mapGet m k <;> simp

theorem mem_of_mapGet_eq_some {m : MapT α β} {k : α} {v : β} {t : Nat}
    (h : mapGet m k = some (v, t)) : (k, v, t) ∈ m := by
  induction m with
  | nil => simp [mapGet] at h
  | cons e rest ih =>
    obtain ⟨a, w, s⟩ := e
    by_cases hk : k = a
    · subst hk
      simp [mapGet] at h
      simp [h]
    · simp [mapGet, hk] at h
      exact List.mem_cons_of_mem _ (ih h)

theorem mapRemove_fst {m : MapT α β} {k : α} :
    (mapRemove m k).1 = mapGet m k := by
  induction m with
  | nil => rfl
  | cons e rest ih =>
    obtain ⟨a, v, t⟩ := e
    by_cases h : k = a <;> simp [mapRemove, mapGet, h, ih]

theorem mapRemove_snd_of_none {m : MapT α β} {k : α} (h : mapGet m k = none) :
    (mapRemove m k).2 = m := by
  induction m with
  | nil => rfl
  | cons e rest ih =>
    obtain ⟨a, v, t⟩ := e
    by_cases hk : k = a
    · subst hk; simp [mapGet] at h
    · simp [mapGet, hk] at h
      simp [mapRemove, hk, ih h]

theorem mapRemove_sublist (m : MapT α β) (k : α) :
    ((mapRemove m k).2).Sublist m := by
  induction m with
  | nil => simp [mapRemove]
  | cons e rest ih =>
    obtain ⟨a, v, t⟩ := e
    by_cases h : k = a
    · simp [mapRemove, h]
    · simp only [mapRemove, if_neg h]
      exact List.Sublist.cons₂ _ ih

/-- The keys of a key-sorted map are duplicate-free. -/
theorem sorted_keysNodup {m : MapT α β}
    (h : List.Pairwise (fun e f => e.1 < f.1) m) : (mapKeys m).Nodup := by
  have := List.Pairwise.map (f := fun e : α × β × Nat => e.1)
    (fun a b hab => hab) h
  exact this.imp (fun hab => ne_of_lt hab)

theorem mapGet_mapRemove_self {m : MapT α β} {k : α}
    (hnd : (mapKeys m).Nodup) : mapGet (mapRemove m k).2 k = none := by
  induction m with
  | nil => rfl
  | cons e rest ih =>
    obtain ⟨a, v, t⟩ := e
    simp only [mapKeys, List.map_cons, List.nodup_cons] at hnd
    by_cases h : k = a
    · subst h
      simp only [mapRemove, if_pos rfl]
      rw [mapGet_eq_none_iff]
      exact hnd.1
    · simp [mapRemove, mapGet, h, ih hnd.2]

theorem mapGet_mapRemove_ne {m : MapT α β} {k k' : α} (h : k' ≠ k) :
    mapGet (mapRemove m k).2 k' = mapGet m k' := by
  induction m with
  | nil => rfl
  | cons e rest ih =>
    obtain ⟨a, v, t⟩ := e
    by_cases hk : k = a
    · subst hk
      simp [mapRemove, mapGet, h]
    · by_cases hk' : k' = a <;> simp [mapRemove, mapGet, hk, hk', ih]

theorem mapInsert_get_self {m : MapT α β} {k : α} {v : β} {t : Nat} :
    mapGet (mapInsert m k v t).2 k = some (v, t) := by
  induction m with
  | nil => simp [mapInsert, mapGet]
  | cons e rest ih =>
    obtain ⟨a, w, s⟩ := e
    rcases lt_trichotomy k a with h | h | h
    · simp [mapInsert, h, mapGet]
    · subst h; simp [mapInsert, mapGet]
    · have h1 : ¬ k < a := not_lt_of_gt h
      have h2 : k ≠ a := ne_of_gt h
      simp [mapInsert, h1, h2, mapGet, ih]

theorem mapInsert_get_ne {m : MapT α β} {k k' : α} {v : β} {t : Nat}
    (h : k' ≠ k) : mapGet (mapInsert m k v t).2 k' = mapGet m k' := by
  induction m with
  | nil => simp [mapInsert, mapGet, h]
  | cons e rest ih =>
    obtain ⟨a, w, s⟩ := e
    rcases lt_trichotomy k a with hka | hka | hka
    · simp [mapInsert, hka, mapGet, h]
    · subst hka
      simp [mapInsert, mapGet, h]
    · have h1 : ¬ k < a := not_lt_of_gt hka
      have h2 : k ≠ a := ne_of_gt hka
      by_cases hk' : k' = a <;> simp [mapInsert, h1, h2, mapGet, hk', ih]

theorem mapInsert_mem {m : MapT α β} {k : α} {v : β} {t : Nat} {e : α × β × Nat}
    (h : e ∈ (mapInsert m k v t).2) : e = (k, v, t) ∨ e ∈ m := by
  induction m with
  | nil => simpa [mapInsert] using h
  | cons f rest ih =>
    obtain ⟨a, w, s⟩ := f
    rcases lt_trichotomy k a with hka | hka | hka
    · rw [show mapInsert ((a, w, s) :: rest) k v t =
          (none, (k, v, t) :: (a, w, s) :: rest) by simp [mapInsert, hka]] at h
      simp only [List.mem_cons] at h
      rcases h with h | h | h
      · exact Or.inl h
      · exact Or.inr (by simp [h])
      · exact Or.inr (List.mem_cons_of_mem _ h)
    · rw [show mapInsert ((a, w, s) :: rest) k v t =
          (some (w, s), (k, v, t) :: rest) by
            simp [mapInsert, hka, lt_irrefl]] at h
      simp only [List.mem_cons] at h
      rcases h with h | h
      · exact Or.inl h
      · exact Or.inr (List.mem_cons_of_mem _ h)
    · have h1 : ¬ k < a := not_lt_of_gt hka
      have h2 : k ≠ a := ne_of_gt hka
      rw [show mapInsert ((a, w, s) :: rest) k v t =
          ((mapInsert rest k v t).1, (a, w, s) :: (mapInsert rest k v t).2) by
            simp [mapInsert, h1, h2]] at h
      simp only [List.mem_cons] at h
      rcases h with h | h
      · exact Or.inr (by simp [h])
      · rcases ih h with h | h
        · exact Or.inl h
        · exact Or.inr (List.mem_cons_of_mem _ h)

theorem mapInsert_sorted {m : MapT α β} {k : α} {v : β} {t : Nat}
    (h : List.Pairwise (fun e f => e.1 < f.1) m) :
    List.Pairwise (fun e f => e.1 < f.1) (mapInsert m k v t).2 := by
  induction m with
  | nil => simp [mapInsert]
  | cons f rest ih =>
    obtain ⟨a, w, s⟩ := f
    rw [List.pairwise_cons] at h
    rcases lt_trichotomy k a with hka | hka | hka
    · simp only [mapInsert, if_pos hka]
      refine List.Pairwise.cons ?_ (List.Pairwise.cons h.1 h.2)
      intro e he
      rcases List.mem_cons.mp he with he | he
      · simpa [he] using hka
      · exact lt_trans hka (h.1 e he)
    · subst hka
      simp only [mapInsert, lt_self_iff_false, if_false, if_pos rfl]
      exact List.Pairwise.cons h.1 h.2
    · have h1 : ¬ k < a := not_lt_of_gt hka
      have h2 : k ≠ a := ne_of_gt hka
      simp only [mapInsert, if_neg h1, if_neg h2]
      refine List.Pairwise.cons ?_ (ih h.2)
      intro e he
      rcases mapInsert_mem he with he | he
      · simpa [he] using hka
      · exact h.1 e he

theorem mapInsert_length_of_none {m : MapT α β} {k : α} {v : β} {t : Nat}
    (h : mapGet m k = none) :
    ((mapInsert m k v t).2).length = m.length + 1 := by
  induction m with
  | nil => simp [mapInsert]
  | cons f rest ih =>
    obtain ⟨a, w, s⟩ := f
    by_cases hk : k = a
    · subst hk; simp [mapGet] at h
    · simp only [mapGet, if_neg hk] at h
      rcases lt_or_gt_of_ne hk with hka | hka
      · simp [mapInsert, hka]
      · have h1 : ¬ k < a := not_lt_of_gt hka
        simp [mapInsert, h1, hk, ih h]

theorem mapInsert_length_of_some {m : MapT α β} {k : α} {v : β} {t : Nat}
    (hs : List.Pairwise (fun e f => e.1 < f.1) m)
    (h : (mapGet m k).isSome = true) :
    ((mapInsert m k v t).2).length = m.length := by
  induction m with
  | nil => simp [mapGet] at h
  | cons f rest ih =>
    obtain ⟨a, w, s⟩ := f
    rw [List.pairwise_cons] at hs
    by_cases hk : k = a
    · subst hk
      simp [mapInsert, mapGet]
    · simp only [mapGet, if_neg hk] at h
      rcases lt_or_gt_of_ne hk with hka | hka
      · exfalso
        rw [mapGet_isSome_iff] at h
        rcases List.mem_map.mp h with ⟨e, he, hke⟩
        have := hs.1 e he
        rw [hke] at this
        exact absurd (lt_trans hka this) (lt_irrefl k)
      · have h1 : ¬ k < a := not_lt_of_gt hka
        simp [mapInsert, h1, hk, ih hs.2 h]

theorem mapSetTime_get_self {m : MapT α β} {k : α} {now : Nat} :
    mapGet (mapSetTime m k now) k =
      (mapGet m k).map (fun p => (p.1, now)) := by
  induction m with
  | nil => rfl
  | cons e rest ih =>
    obtain ⟨a, v, t⟩ := e
    by_cases h : k = a <;> simp [mapSetTime, mapGet, h, ih]

theorem mapSetTime_get_ne {m : MapT α β} {k k' : α} {now : Nat}
    (h : k' ≠ k) :
    mapGet (mapSetTime m k now) k' = mapGet m k' := by
  induction m with
  | nil => rfl
  | cons e rest ih =>
    obtain ⟨a, v, t⟩ := e
    by_cases hk : k = a
    · subst hk; simp [mapSetTime, mapGet, h]
    · by_cases hk' : k' = a <;> simp [mapSetTime, mapGet, hk, hk', ih]

theorem mapSetTime_length {m : MapT α β} {k : α} {now : Nat} :
    (mapSetTime m k now).length = m.length := by
  induction m with
  | nil => rfl
  | cons e rest ih =>
    obtain ⟨a, v, t⟩ := e
    by_cases h : k = a <;> simp [mapSetTime, h, ih]

theorem mapSetTime_mem {m : MapT α β} {k : α} {now : Nat} {e : α × β × Nat}
    (h : e ∈ mapSetTime m k now) :
    e ∈ m ∨ ∃ v t, e = (k, v, now) ∧ (k, v, t) ∈ m := by
  induction m with
  | nil => simp [mapSetTime] at h
  | cons f rest ih =>
    obtain ⟨a, v, t⟩ := f
    by_cases hk : k = a
    · subst hk
      simp only [mapSetTime, if_pos rfl, List.mem_cons, if_true,
        eq_self_iff_true, ite_true] at h
      rcases h with h | h
      · exact Or.inr ⟨v, t, h, List.mem_cons_self _ _⟩
      · exact Or.inl (List.mem_cons_of_mem _ h)
    · simp only [mapSetTime, if_neg hk, List.mem_cons] at h
      rcases h with h | h
      · exact Or.inl (by simp [h])
      · rcases ih h with h | ⟨w, s, he, hm⟩
        · exact Or.inl (List.mem_cons_of_mem _ h)
        · exact Or.inr ⟨w, s, he, List.mem_cons_of_mem _ hm⟩

theorem mapSetTime_sorted {m : MapT α β} {k : α} {now : Nat}
    (h : List.Pairwise (fun e f => e.1 < f.1) m) :
    List.Pairwise (fun e f => e.1 < f.1) (mapSetTime m k now) := by
  induction m with
  | nil => simp [mapSetTime]
  | cons e rest ih =>
    obtain ⟨a, v, t⟩ := e
    rw [List.pairwise_cons] at h
    by_cases hk : k = a
    · subst hk
      simp only [mapSetTime, if_pos rfl]
      exact List.Pairwise.cons h.1 h.2
    · simp only [mapSetTime, if_neg hk]
      refine List.Pairwise.cons ?_ (ih h.2)
      intro e he
      rcases mapSetTime_mem he with he | ⟨w, s, he, hm⟩
      · exact h.1 e he
      · have := h.1 (k, w, s) hm
        rw [he]
        exact this

/-! ### Lemmas about the queue primitives -/

theorem findIdxEq_of_not_mem {l : List α} {k : α} (h : k ∉ l) :
    l.findIdx? (fun x => x = k) = none := by
  rw [List.findIdx?_eq_none_iff]
  intro x hx
  simp only [decide_eq_false_iff_not]
  exact fun hxk => h (hxk ▸ hx)

theorem updateKey_of_not_mem {l : List α} {k : α} (h : k ∉ l) :
    updateKey l k = l := by
  simp [updateKey, findIdxEq_of_not_mem h]

/-- `position` + `remove` + `push_back` is erase-and-append. -/
theorem updateKey_eq {l : List α} {k : α} (h : k ∈ l) :
    updateKey l k = l.erase k ++ [k] := by
  induction l with
  | nil => cases h
  | cons a rest ih =>
    by_cases hk : a = k
    · subst hk
      simp [updateKey, List.findIdx?_cons, List.erase_cons_head]
    · have hmem : k ∈ rest := by
        rcases List.mem_cons.mp h with h1 | h1
        · exact absurd h1.symm hk
        · exact h1
      have hne : (decide (a = k)) = false := by
        simp [hk]
      rw [List.erase_cons_tail (by simpa using hk)]
      rcases hidx : rest.findIdx? (fun x => x = k) with _ | i
      · exfalso
        rw [List.findIdx?_eq_none_iff] at hidx
        have := hidx k hmem
        simp at this
      · have ihv := ih hmem
        rw [show updateKey rest k = rest.eraseIdx i ++ [k] by
          simp [updateKey, hidx]] at ihv
        have hstep : updateKey (a :: rest) k = a :: (rest.eraseIdx i ++ [k]) := by
          simp [updateKey, List.findIdx?_cons, hne, List.findIdx?_succ, hidx,
            List.eraseIdx_cons_succ]
        rw [hstep, ihv]
        simp

/-! ### Lemmas about `stamps` -/

theorem stamps_append (m : MapT α β) (l1 l2 : List α) :
    stamps m (l1 ++ l2) = stamps m l1 ++ stamps m l2 :=
  List.filterMap_append l1 l2 _

theorem stamps_sublist_of_sublist {m : MapT α β} {l1 l2 : List α}
    (h : l1.Sublist l2) : (stamps m l1).Sublist (stamps m l2) :=
  List.Sublist.filterMap _ h

/-- Keys absent from `l` do not affect its stamps. -/
theorem stamps_congr {m m2 : MapT α β} {l : List α}
    (h : ∀ k ∈ l, mapGet m2 k = mapGet m k) : stamps m2 l = stamps m l := by
  induction l with
  | nil => rfl
  | cons a rest ih =>
    have h1 := h a (List.mem_cons_self _ _)
    have h2 : List.filterMap (fun k => (mapGet m2 k).map (fun p => p.2)) rest
        = List.filterMap (fun k => (mapGet m k).map (fun p => p.2)) rest :=
      ih (fun k hk => h k (List.mem_cons_of_mem _ hk))
    simp only [stamps, List.filterMap_cons, h1, h2]

theorem stamps_mem {m : MapT α β} {l : List α} {t : Nat}
    (h : t ∈ stamps m l) : ∃ k v, mapGet m k = some (v, t) := by
  rcases List.mem_filterMap.mp h with ⟨k, _, hk⟩
  rcases hget : mapGet m k with _ | p
  · rw [hget] at hk; cases hk
  · obtain ⟨v, s⟩ := p
    rw [hget] at hk
    have hst : s = t := by simpa using hk
    subst hst
    exact ⟨k, v, hget⟩

/-- Every stamp along the queue is bounded by the last completed operation
time. -/
theorem stamps_le {m : MapT α β} {l : List α} {T : Nat}
    (hle : ∀ e ∈ m, e.2.2 ≤ T) {t : Nat} (h : t ∈ stamps m l) : t ≤ T := by
  rcases stamps_mem h with ⟨k, v, hget⟩
  exact hle _ (mem_of_mapGet_eq_some hget)

/-! ### Characterization of the expiry sweep -/

theorem takeWhile_congr {p q : α → Bool} {l : List α}
    (h : ∀ x ∈ l, p x = q x) : l.takeWhile p = l.takeWhile q := by
  induction l with
  | nil => rfl
  | cons a rest ih =>
    rw [List.takeWhile_cons, List.takeWhile_cons, h a (List.mem_cons_self _ _),
      ih (fun x hx => h x (List.mem_cons_of_mem _ hx))]

/-- Full description of the sweep loop: it returns the values of the
expired front-contiguous block (identified by `takeWhile`), removes exactly
those keys from the map, and leaves everything else alone. -/
theorem sweepLoop_spec {m : MapT α β} {l : List α} {d now : Nat}
    (hmem : ∀ k ∈ l, (mapGet m k).isSome = true) (hnd : l.Nodup)
    (hkeys : (mapKeys m).Nodup) :
    ∃ vs m2, sweepLoop m l d now = some (vs, m2) ∧
      vs = (l.takeWhile (expiredB m d now)).filterMap
        (fun k => (mapGet m k).map (fun p => p.1)) ∧
      vs.length = (l.takeWhile (expiredB m d now)).length ∧
      (∀ k', mapGet m2 k' =
        if k' ∈ l.takeWhile (expiredB m d now) then none else mapGet m k') ∧
      m2.Sublist m := by
  induction l generalizing m with
  | nil =>
    exact ⟨[], m, rfl, rfl, rfl, fun k' => by simp, List.Sublist.refl m⟩
  | cons k rest ih =>
    have hk := hmem k (List.mem_cons_self _ _)
    rw [Option.isSome_iff_exists] at hk
    obtain ⟨⟨v, t⟩, hget⟩ := hk
    by_cases hexp : t + d ≥ now
    · have hpb : expiredB m d now k = false := by
        simp [expiredB, hget]
        omega
      have htw : (k :: rest).takeWhile (expiredB m d now) = [] := by
        rw [List.takeWhile_cons, hpb]
        simp
      refine ⟨[], m, ?_, ?_, ?_, ?_, List.Sublist.refl m⟩
      · simp [sweepLoop, hget, if_pos hexp]
      · rw [htw]; rfl
      · rw [htw]; rfl
      · intro k'; rw [htw]; simp
    · have hpb : expiredB m d now k = true := by
        simp [expiredB, hget]
        omega
      have htw : (k :: rest).takeWhile (expiredB m d now)
          = k :: rest.takeWhile (expiredB m d now) := by
        rw [List.takeWhile_cons, hpb]
        simp
      set m1 : MapT α β := (mapRemove m k).2 with hm1
      have hnd1 : rest.Nodup := (List.nodup_cons.mp hnd).2
      have hknotin : k ∉ rest := (List.nodup_cons.mp hnd).1
      have hgetm1 : ∀ k' ∈ rest, mapGet m1 k' = mapGet m k' := by
        intro k' hk'
        exact mapGet_mapRemove_ne (fun he => hknotin (he ▸ hk'))
      have hmem1 : ∀ k' ∈ rest, (mapGet m1 k').isSome = true := by
        intro k' hk'
        rw [hgetm1 k' hk']
        exact hmem k' (List.mem_cons_of_mem _ hk')
      have hkeys1 : (mapKeys m1).Nodup := by
        have hs : (mapKeys m1).Sublist (mapKeys m) :=
          List.Sublist.map (fun e : α × β × Nat => e.1) (mapRemove_sublist m k)
        exact hs.nodup hkeys
      obtain ⟨vs1, m2, hloop, hvs1, hlen1, hget2, hsub⟩ := ih hmem1 hnd1 hkeys1
      have htwc : rest.takeWhile (expiredB m1 d now)
          = rest.takeWhile (expiredB m d now) :=
        takeWhile_congr (fun x hx => by
          simp [expiredB, hgetm1 x hx])
      refine ⟨v :: vs1, m2, ?_, ?_, ?_, ?_, hsub.trans (mapRemove_sublist m k)⟩
      · simp only [sweepLoop, hget]
        rw [if_neg hexp, ← hm1, hloop]
      · rw [htw, List.filterMap_cons, hget]
        simp only [Option.map_some']
        congr 1
        rw [hvs1, htwc]
        refine List.filterMap_congr ?_
        intro x hx
        have hx' : x ∈ rest := List.Sublist.mem hx (List.takeWhile_sublist _)
        rw [hgetm1 x hx']
      · rw [htw]
        simp only [List.length_cons]
        rw [hlen1, htwc]
      · intro k'
        rw [htw]
        by_cases hkk : k' = k
        · subst hkk
          rw [if_pos (List.mem_cons_self _ _)]
          have h1 := hget2 k'
          rw [htwc] at h1
          by_cases hin : k' ∈ rest.takeWhile (expiredB m d now)
          · rw [h1, if_pos hin]
          · rw [h1, if_neg hin, hm1]
            exact mapGet_mapRemove_self hkeys
        · have h1 := hget2 k'
          rw [htwc] at h1
          have hne : mapGet m1 k' = mapGet m k' := mapGet_mapRemove_ne hkk
          by_cases hin : k' ∈ rest.takeWhile (expiredB m d now)
          · rw [if_pos (List.mem_cons_of_mem _ hin), h1, if_pos hin]
          · rw [if_neg ?_, h1, if_neg hin, hne]
            intro hc
            rcases List.mem_cons.mp hc with hc | hc
            · exact hkk hc
            · exact hin hc

theorem zip_filterMap_vals {g : α → Option (β × Nat)} {t : List α}
    (h : ∀ k ∈ t, (g k).isSome = true) :
    t.zip (t.filterMap (fun k => (g k).map (fun p => p.1)))
      = t.filterMap (fun k => (g k).map (fun p => (k, p.1))) := by
  induction t with
  | nil => rfl
  | cons a rest ih =>
    have ha := h a (List.mem_cons_self _ _)
    rw [Option.isSome_iff_exists] at ha
    obtain ⟨⟨v, s⟩, hg⟩ := ha
    rw [List.filterMap_cons, List.filterMap_cons, hg]
    simp only [Option.map_some']
    rw [List.zip_cons_cons, ih (fun k hk => h k (List.mem_cons_of_mem _ hk))]

/-- A stamp witness: a queue member's timestamp occurs in `stamps`. -/
theorem stamp_mem_stamps {m : MapT α β} {l : List α} {k : α} {v : β} {t : Nat}
    (hk : k ∈ l) (hget : mapGet m k = some (v, t)) : t ∈ stamps m l :=
  List.mem_filterMap.mpr ⟨k, hk, by rw [hget]; rfl⟩

/-- With sorted stamps, nothing beyond the expired front block is expired:
the entries remaining after `dropWhile` are all non-expired. -/
theorem dropWhile_not_expired {m : MapT α β} {l : List α} {d now : Nat}
    (hmem : ∀ k ∈ l, (mapGet m k).isSome = true)
    (hmono : List.Pairwise (fun a b : Nat => a ≤ b) (stamps m l)) :
    ∀ k ∈ l.dropWhile (expiredB m d now), expiredB m d now k = false := by
  induction l with
  | nil => intro k hk; cases hk
  | cons a rest ih =>
    have ha := hmem a (List.mem_cons_self _ _)
    rw [Option.isSome_iff_exists] at ha
    obtain ⟨⟨v, t⟩, hg⟩ := ha
    have hstamps : stamps m (a :: rest) = t :: stamps m rest := by
      simp [stamps, List.filterMap_cons, hg]
    rw [hstamps, List.pairwise_cons] at hmono
    by_cases hexp : expiredB m d now a = true
    · rw [List.dropWhile_cons, if_pos hexp]
      exact ih (fun k hk => hmem k (List.mem_cons_of_mem _ hk)) hmono.2
    · rw [List.dropWhile_cons, if_neg hexp]
      intro k hk
      rcases List.mem_cons.mp hk with hk | hk
      · subst hk
        exact Bool.not_eq_true _ ▸ (by simpa using hexp)
      · have hks := hmem k (List.mem_cons_of_mem _ hk)
        rw [Option.isSome_iff_exists] at hks
        obtain ⟨⟨w, s⟩, hgk⟩ := hks
        have hts : t ≤ s := hmono.1 s (stamp_mem_stamps hk hgk)
        have hta : ¬ t + d < now := by
          simp [expiredB, hg] at hexp
          omega
        simp [expiredB, hgk]
        omega

/-- With sorted stamps the expired keys are exactly the `takeWhile` block:
they form a contiguous block at the queue front. -/
theorem expired_filter_eq_takeWhile {m : MapT α β} {l : List α} {d now : Nat}
    (hmem : ∀ k ∈ l, (mapGet m k).isSome = true)
    (hmono : List.Pairwise (fun a b : Nat => a ≤ b) (stamps m l)) :
    l.filter (expiredB m d now) = l.takeWhile (expiredB m d now) := by
  set p := expiredB m d now with hp
  have h1 : (l.takeWhile p).filter p = l.takeWhile p :=
    List.filter_eq_self.mpr (fun a ha => List.mem_takeWhile_imp ha)
  have h2 : (l.dropWhile p).filter p = [] :=
    List.filter_eq_nil_iff.mpr (fun a ha => by
      have h3 := dropWhile_not_expired hmem hmono a ha
      rw [hp, h3]
      simp)
  calc l.filter p = ((l.takeWhile p ++ l.dropWhile p)).filter p := by
        rw [List.takeWhile_append_dropWhile]
    _ = (l.takeWhile p).filter p ++ (l.dropWhile p).filter p :=
        List.filter_append _ _
    _ = l.takeWhile p := by rw [h1, h2, List.append_nil]

/-- Cache-level description of `remove_expired` in the TTL case: it
returns exactly the key-value pairs of the expired front block of the
queue (oldest first), drops that block from the queue, and removes exactly
those keys from the map. -/
theorem removeExpired_spec {c : Cache α β} {d : Nat} (now : Nat)
    (hd : c.ttl = some d)
    (hmem : ∀ k ∈ c.list, (mapGet c.map k).isSome = true)
    (hkeys : (mapKeys c.map).Nodup) (hnd : c.list.Nodup) :
    ∃ ps c2, removeExpired c now = some (ps, c2) ∧
      ps = (c.list.takeWhile (expiredB c.map d now)).filterMap
        (fun k => (mapGet c.map k).map (fun p => (k, p.1))) ∧
      c2.list = c.list.dropWhile (expiredB c.map d now) ∧
      (∀ k', mapGet c2.map k' =
        if k' ∈ c.list.takeWhile (expiredB c.map d now) then none
        else mapGet c.map k') ∧
      c2.map.Sublist c.map ∧ c2.capacity = c.capacity ∧ c2.ttl = c.ttl := by
  obtain ⟨vs, m2, hloop, hvs, hlen, hget2, hsub⟩ :=
    @sweepLoop_spec _ _ _ c.map c.list d now hmem hnd hkeys
  set tw := c.list.takeWhile (expiredB c.map d now) with htw
  have htake : c.list.take tw.length = tw := by
    conv_lhs => rw [← List.takeWhile_append_dropWhile (p := expiredB c.map d now)
      (l := c.list)]
    exact List.take_left _ _
  have hdrop : c.list.drop tw.length = c.list.dropWhile (expiredB c.map d now) := by
    conv_lhs => rw [← List.takeWhile_append_dropWhile (p := expiredB c.map d now)
      (l := c.list)]
    exact List.drop_left _ _
  have htwmem : ∀ k ∈ tw, (mapGet c.map k).isSome = true := fun k hk =>
    hmem k (List.Sublist.mem hk (List.takeWhile_sublist _))
  refine ⟨(c.list.take vs.length).zip vs,
    { c with map := m2, list := c.list.drop vs.length }, ?_, ?_, ?_, ?_, hsub,
    rfl, rfl⟩
  · simp only [removeExpired, hd, hloop]
  · rw [hlen, htake, hvs]
    exact zip_filterMap_vals htwmem
  · simp only [hlen]
    exact hdrop
  · exact hget2

/-- `remove_expired` in the no-TTL case returns no pairs and (because the
queue can only be non-empty when the map is) leaves the cache unchanged. -/
theorem removeExpired_none {c : Cache α β} (now : Nat) (hd : c.ttl = none)
    (hmem : ∀ k ∈ c.list, (mapGet c.map k).isSome = true) :
    removeExpired c now = some ([], c) := by
  by_cases he : c.map.isEmpty
  · have hm : c.map = [] := List.isEmpty_iff.mp he
    have hl : c.list = [] := by
      rcases hcl : c.list with _ | ⟨a, rest⟩
      · rfl
      · have := hmem a (by rw [hcl]; exact List.mem_cons_self _ _)
        rw [hm] at this
        simp [mapGet] at this
    simp only [removeExpired, hd, if_pos he]
    rw [← hl, ← hd]
  · simp only [removeExpired, hd, if_neg he]

/-- The sweep preserves the store invariant, never grows the map, and
keeps capacity and TTL. -/
theorem removeExpired_inv {c : Cache α β} {T : Nat} (now : Nat)
    (hinv : StoreInv c.map c.list T) {ps : List (α × β)} {c2 : Cache α β}
    (h : removeExpired c now = some (ps, c2)) :
    StoreInv c2.map c2.list T ∧ c2.map.length ≤ c.map.length ∧
      c2.capacity = c.capacity ∧ c2.ttl = c.ttl := by
  have hmem : ∀ k ∈ c.list, (mapGet c.map k).isSome = true := fun k hk =>
    (hinv.mem_iff k).mp hk
  rcases httl : c.ttl with _ | d
  · rw [removeExpired_none now httl hmem] at h
    injection h with h1
    have hc2 : c2 = c := (Prod.ext_iff.mp h1).2.symm
    rw [hc2]
    exact ⟨hinv, le_refl _, rfl, httl⟩
  · obtain ⟨ps2, c3, heq, hps2, hlist, hget2, hsub, hcap, httl2⟩ :=
      removeExpired_spec now httl hmem (sorted_keysNodup hinv.sorted) hinv.nodup
    rw [heq] at h
    injection h with h1
    have hc2 : c2 = c3 := (Prod.ext_iff.mp h1).2.symm
    rw [hc2]
    set tw := c.list.takeWhile (expiredB c.map d now) with htwdef
    set dw := c.list.dropWhile (expiredB c.map d now) with hdwdef
    have happ : tw ++ dw = c.list := List.takeWhile_append_dropWhile _ _
    have hnd2 : (tw ++ dw).Nodup := by rw [happ]; exact hinv.nodup
    rcases List.nodup_append.mp hnd2 with ⟨_, hdwnd, hdisj⟩
    have hnotin : ∀ k ∈ dw, k ∉ tw := fun k hk htw => hdisj htw hk
    have hgetdw : ∀ k ∈ dw, mapGet c3.map k = mapGet c.map k := by
      intro k hk
      rw [hget2 k, if_neg (hnotin k hk)]
    refine ⟨⟨?_, ?_, ?_, ?_, ?_⟩, hsub.length_le, hcap, httl2.trans httl⟩
    · exact List.Pairwise.sublist hsub hinv.sorted
    · rw [hlist]
      exact (List.dropWhile_sublist _).nodup hinv.nodup
    · intro k
      rw [hlist]
      constructor
      · intro hk
        rw [hgetdw k hk]
        exact hmem k (List.Sublist.mem hk (List.dropWhile_sublist _))
      · intro hs
        have hktw : k ∉ tw := by
          intro hktw
          rw [hget2 k, if_pos hktw] at hs
          cases hs
        rw [hget2 k, if_neg hktw] at hs
        have hkl : k ∈ c.list := (hinv.mem_iff k).mpr hs
        rw [← happ] at hkl
        rcases List.mem_append.mp hkl with hk | hk
        · exact absurd hk hktw
        · exact hk
    · intro e he
      exact hinv.stamp_le e (List.Sublist.mem he hsub)
    · rw [hlist]
      have hc : stamps c3.map dw = stamps c.map dw := stamps_congr hgetdw
      rw [hc]
      have hsubdw : dw.Sublist c.list := List.dropWhile_sublist _
      exact List.Pairwise.sublist (stamps_sublist_of_sublist hsubdw) hinv.mono

/-! ### The capacity sweep (`remove_lru`) -/

theorem mapRemove_length_of_some {m : MapT α β} {k : α}
    (h : (mapGet m k).isSome = true) :
    ((mapRemove m k).2).length + 1 = m.length := by
  induction m with
  | nil => simp [mapGet] at h
  | cons e rest ih =>
    obtain ⟨a, v, t⟩ := e
    by_cases hk : k = a
    · simp [mapRemove, hk]
    · simp only [mapGet, if_neg hk] at h
      simp [mapRemove, hk, ← ih h]

/-- Under duplicate-free map keys, a successful `remove_lru` key drain
removes exactly the drained keys from the map. -/
theorem removeKeys_char {ks : List α} {m m2 : MapT α β}
    (hkeys : (mapKeys m).Nodup) (h : removeKeys m ks = some m2) :
    (∀ k', mapGet m2 k' = if k' ∈ ks then none else mapGet m k') ∧
      m2.Sublist m ∧ m2.length + ks.length = m.length := by
  induction ks generalizing m with
  | nil =>
    simp only [removeKeys] at h
    injection h with h1
    subst h1
    exact ⟨fun k' => by simp, List.Sublist.refl _, by simp⟩
  | cons k rest ih =>
    simp only [removeKeys] at h
    rcases hrm : mapRemove m k with ⟨o, m1⟩
    rw [hrm] at h
    rcases o with _ | p
    · cases h
    · have hget : (mapGet m k).isSome = true := by
        rw [← mapRemove_fst, hrm]
        rfl
      have hm1 : m1 = (mapRemove m k).2 := by rw [hrm]
      have hkeys1 : (mapKeys m1).Nodup := by
        have hs : (mapKeys m1).Sublist (mapKeys m) := by
          rw [hm1]
          exact List.Sublist.map (fun e : α × β × Nat => e.1)
            (mapRemove_sublist m k)
        exact hs.nodup hkeys
      obtain ⟨hget2, hsub2, hlen2⟩ := ih hkeys1 h
      refine ⟨?_, hsub2.trans (hm1 ▸ mapRemove_sublist m k), ?_⟩
      · intro k'
        by_cases hkk : k' = k
        · subst hkk
          rw [if_pos (List.mem_cons_self _ _)]
          by_cases hin : k' ∈ rest
          · rw [hget2 k', if_pos hin]
          · rw [hget2 k', if_neg hin, hm1]
            exact mapGet_mapRemove_self hkeys
        · rw [hget2 k']
          have hne : mapGet m1 k' = mapGet m k' := by
            rw [hm1]
            exact mapGet_mapRemove_ne hkk
          by_cases hin : k' ∈ rest
          · rw [if_pos hin, if_pos (List.mem_cons_of_mem _ hin)]
          · rw [if_neg hin, hne, if_neg (fun hc => ?_)]
            rcases List.mem_cons.mp hc with hc | hc
            · exact hkk hc
            · exact hin hc
      · have h1 : m1.length + 1 = m.length := by
          rw [hm1]
          exact mapRemove_length_of_some hget
        simp only [List.length_cons]
        omega

/-- A successful key drain exists whenever the drained keys are
duplicate-free and all present. -/
theorem removeKeys_some {ks : List α} {m : MapT α β}
    (hmem : ∀ k ∈ ks, (mapGet m k).isSome = true) (hnd : ks.Nodup)
    (hkeys : (mapKeys m).Nodup) : ∃ m2, removeKeys m ks = some m2 := by
  induction ks generalizing m with
  | nil => exact ⟨m, rfl⟩
  | cons k rest ih =>
    have hk := hmem k (List.mem_cons_self _ _)
    rw [Option.isSome_iff_exists] at hk
    obtain ⟨p, hget⟩ := hk
    have hknotin : k ∉ rest := (List.nodup_cons.mp hnd).1
    have hkeys1 : (mapKeys (mapRemove m k).2).Nodup := by
      have hs : (mapKeys (mapRemove m k).2).Sublist (mapKeys m) :=
        List.Sublist.map (fun e : α × β × Nat => e.1) (mapRemove_sublist m k)
      exact hs.nodup hkeys
    have hmem1 : ∀ k' ∈ rest, (mapGet (mapRemove m k).2 k').isSome = true := by
      intro k' hk'
      rw [mapGet_mapRemove_ne (fun he => hknotin (by rw [← he]; exact hk'))]
      exact hmem k' (List.mem_cons_of_mem _ hk')
    obtain ⟨m2, hm2⟩ := ih hmem1 (List.nodup_cons.mp hnd).2 hkeys1
    refine ⟨m2, ?_⟩
    simp only [removeKeys]
    rcases hrm : mapRemove m k with ⟨o, m1⟩
    have : o = some p := by rw [← mapRemove_fst (m := m) (k := k), hrm] at hget; exact hget
    subst this
    have hm1 : m1 = (mapRemove m k).2 := by rw [hrm]
    rw [hm1]
    exact hm2

/-- Queue length equals store size under the invariant. -/
theorem storeInv_length {m : MapT α β} {l : List α} {T : Nat}
    (hinv : StoreInv m l T) : l.length = m.length := by
  have hperm : l.Perm (mapKeys m) :=
    (List.perm_ext_iff_of_nodup hinv.nodup (sorted_keysNodup hinv.sorted)).mpr
      (fun a => by rw [hinv.mem_iff a, mapGet_isSome_iff])
  rw [hperm.length_eq]
  simp [mapKeys]

/-- Dropping a front block of the queue and exactly those keys from the
map preserves the store invariant. -/
theorem drop_inv {m m2 : MapT α β} {l : List α} {T : Nat} {n : Nat}
    (hinv : StoreInv m l T) (hsub : m2.Sublist m)
    (hget : ∀ k', mapGet m2 k' = if k' ∈ l.take n then none else mapGet m k') :
    StoreInv m2 (l.drop n) T := by
  have happ : l.take n ++ l.drop n = l := List.take_append_drop n l
  have hnd2 : (l.take n ++ l.drop n).Nodup := by rw [happ]; exact hinv.nodup
  rcases List.nodup_append.mp hnd2 with ⟨_, hdnd, hdisj⟩
  have hnotin : ∀ k ∈ l.drop n, k ∉ l.take n := fun k hk htk => hdisj htk hk
  have hgetd : ∀ k ∈ l.drop n, mapGet m2 k = mapGet m k := by
    intro k hk
    rw [hget k, if_neg (hnotin k hk)]
  refine ⟨List.Pairwise.sublist hsub hinv.sorted, hdnd, ?_, ?_, ?_⟩
  · intro k
    constructor
    · intro hk
      rw [hgetd k hk]
      exact (hinv.mem_iff k).mp (List.Sublist.mem hk (List.drop_sublist _ _))
    · intro hs
      have hktk : k ∉ l.take n := by
        intro hktk
        rw [hget k, if_pos hktk] at hs
        cases hs
      rw [hget k, if_neg hktk] at hs
      have hkl : k ∈ l := (hinv.mem_iff k).mpr hs
      rw [← happ] at hkl
      rcases List.mem_append.mp hkl with hk | hk
      · exact absurd hk hktk
      · exact hk
  · intro e he
    exact hinv.stamp_le e (List.Sublist.mem he hsub)
  · have hc : stamps m2 (l.drop n) = stamps m (l.drop n) := stamps_congr hgetd
    rw [hc]
    exact List.Pairwise.sublist
      (stamps_sublist_of_sublist (List.drop_sublist _ _)) hinv.mono

/-- What a successful `remove_lru` did: it dropped some front block of the
queue and exactly those keys from the map, and when it actually evicted,
the store was full and ended at `capacity - 1` entries. -/
theorem removeLru_char {c : Cache α β} {T : Nat} (hinv : StoreInv c.map c.list T)
    {c2 : Cache α β} (h : removeLru c = some c2) :
    ∃ n, c2.list = c.list.drop n ∧
      (∀ k', mapGet c2.map k' =
        if k' ∈ c.list.take n then none else mapGet c.map k') ∧
      c2.map.Sublist c.map ∧ StoreInv c2.map c2.list T ∧
      (c.map.length < c.capacity ∧ c2 = c ∨
        c.capacity ≤ c.map.length ∧ 1 ≤ c.capacity ∧
          c2.map.length + 1 = c.capacity) ∧
      c2.capacity = c.capacity ∧ c2.ttl = c.ttl := by
  by_cases hfull : c.map.length ≥ c.capacity
  · have hlen : c.list.length = c.map.length := storeInv_length hinv
    simp only [removeLru, if_pos hfull] at h
    by_cases hle : c.map.length - c.capacity + 1 ≤ c.list.length
    · rw [if_pos hle] at h
      rcases hrk : removeKeys c.map (c.list.take (c.map.length - c.capacity + 1))
        with _ | m2
      · rw [hrk] at h; cases h
      · rw [hrk] at h
        injection h with h1
        subst h1
        obtain ⟨hget2, hsub2, hlen2⟩ :=
          removeKeys_char (sorted_keysNodup hinv.sorted) hrk
        have hcap1 : 1 ≤ c.capacity := by omega
        have htklen : (c.list.take (c.map.length - c.capacity + 1)).length
            = c.map.length - c.capacity + 1 := by
          rw [List.length_take]
          omega
        refine ⟨c.map.length - c.capacity + 1, rfl, hget2, hsub2,
          drop_inv hinv hsub2 hget2, Or.inr ⟨hfull, hcap1, ?_⟩, rfl, rfl⟩
        rw [htklen] at hlen2
        show m2.length + 1 = c.capacity
        omega
    · rw [if_neg hle] at h
      cases h
  · simp only [removeLru, if_neg hfull] at h
    injection h with h1
    subst h1
    refine ⟨0, by simp, fun k' => by simp, List.Sublist.refl _, ?_, ?_, rfl, rfl⟩
    · simpa using hinv
    · exact Or.inl ⟨by omega, rfl⟩

/-- `remove_lru` succeeds whenever the capacity is at least one. -/
theorem removeLru_some {c : Cache α β} {T : Nat}
    (hinv : StoreInv c.map c.list T) (hcap : 1 ≤ c.capacity) :
    ∃ c2, removeLru c = some c2 := by
  by_cases hfull : c.map.length ≥ c.capacity
  · have hlen : c.list.length = c.map.length := storeInv_length hinv
    have hle : c.map.length - c.capacity + 1 ≤ c.list.length := by omega
    have htkmem : ∀ k ∈ c.list.take (c.map.length - c.capacity + 1),
        (mapGet c.map k).isSome = true :=
      fun k hk => (hinv.mem_iff k).mp (List.Sublist.mem hk (List.take_sublist _ _))
    have htknd : (c.list.take (c.map.length - c.capacity + 1)).Nodup :=
      (List.take_sublist _ _).nodup hinv.nodup
    obtain ⟨m2, hm2⟩ := removeKeys_some htkmem htknd (sorted_keysNodup hinv.sorted)
    refine ⟨{ c with map := m2, list := c.list.drop (c.map.length - c.capacity + 1) },
      ?_⟩
    simp only [removeLru, if_pos hfull, if_pos hle]
    rw [hm2]
  · exact ⟨c, by simp only [removeLru, if_neg hfull]⟩

/-! ### Touching and appending preserve the invariant -/

theorem storeInv_mono_T {m : MapT α β} {l : List α} {T now : Nat}
    (hinv : StoreInv m l T) (hT : T ≤ now) : StoreInv m l now :=
  ⟨hinv.sorted, hinv.nodup, hinv.mem_iff,
    fun e he => le_trans (hinv.stamp_le e he) hT, hinv.mono⟩

/-- Moving `k` to the queue back while giving it timestamp `now` (leaving
other entries alone) preserves the invariant. -/
theorem touch_inv {m m2 : MapT α β} {l : List α} {T now : Nat} {k : α}
    (hinv : StoreInv m l T) (hT : T ≤ now)
    (hsorted2 : List.Pairwise (fun e f => e.1 < f.1) m2)
    (hself : ∃ v, mapGet m2 k = some (v, now))
    (hne : ∀ k', k' ≠ k → mapGet m2 k' = mapGet m k')
    (hstamp2 : ∀ e ∈ m2, e.2.2 ≤ now)
    (hkin : k ∈ l) :
    StoreInv m2 (updateKey l k) now := by
  obtain ⟨v0, hv0⟩ := hself
  rw [updateKey_eq hkin]
  have hknotin : k ∉ l.erase k := hinv.nodup.not_mem_erase
  have hgete : ∀ x ∈ l.erase k, mapGet m2 x = mapGet m x := by
    intro x hx
    exact hne x (fun he => hknotin (he ▸ hx))
  refine ⟨hsorted2, ?_, ?_, hstamp2, ?_⟩
  · rw [List.nodup_append]
    exact ⟨hinv.nodup.erase k, List.nodup_singleton k,
      fun x hx hxk => hknotin ((List.mem_singleton.mp hxk) ▸ hx)⟩
  · intro x
    rw [List.mem_append, List.mem_singleton]
    by_cases hxk : x = k
    · subst hxk
      simp [hv0]
    · rw [hne x hxk]
      constructor
      · intro hx
        rcases hx with hx | hx
        · exact (hinv.mem_iff x).mp (List.Sublist.mem hx (List.erase_sublist _ _))
        · exact absurd hx hxk
      · intro hs
        exact Or.inl ((List.mem_erase_of_ne hxk).mpr ((hinv.mem_iff x).mpr hs))
  · rw [stamps_append]
    have hsk : stamps m2 [k] = [now] := by
      simp [stamps, hv0]
    have hse : stamps m2 (l.erase k) = stamps m (l.erase k) := stamps_congr hgete
    rw [hsk, hse]
    rw [List.pairwise_append]
    refine ⟨?_, List.pairwise_singleton _ _, ?_⟩
    · exact List.Pairwise.sublist
        (stamps_sublist_of_sublist (List.erase_sublist _ _)) hinv.mono
    · intro a ha b hb
      rw [List.mem_singleton] at hb
      subst hb
      exact le_trans
        (stamps_le hinv.stamp_le
          (List.Sublist.mem ha (stamps_sublist_of_sublist (List.erase_sublist _ _))))
        hT

/-- Appending a fresh key at the queue back with timestamp `now` preserves
the invariant. -/
theorem append_inv {m : MapT α β} {l : List α} {T now : Nat} {k : α} {v : β}
    (hinv : StoreInv m l T) (hT : T ≤ now) (hknot : mapGet m k = none) :
    StoreInv (mapInsert m k v now).2 (l ++ [k]) now := by
  have hknotl : k ∉ l := by
    intro hk
    have := (hinv.mem_iff k).mp hk
    rw [hknot] at this
    cases this
  have hgete : ∀ x ∈ l, mapGet (mapInsert m k v now).2 x = mapGet m x := by
    intro x hx
    exact mapInsert_get_ne (fun he => hknotl (he ▸ hx))
  refine ⟨mapInsert_sorted hinv.sorted, ?_, ?_, ?_, ?_⟩
  · rw [List.nodup_append]
    exact ⟨hinv.nodup, List.nodup_singleton k,
      fun x hx hxk => hknotl ((List.mem_singleton.mp hxk) ▸ hx)⟩
  · intro x
    rw [List.mem_append, List.mem_singleton]
    by_cases hxk : x = k
    · subst hxk
      simp [mapInsert_get_self]
    · rw [mapInsert_get_ne hxk]
      constructor
      · intro hx
        rcases hx with hx | hx
        · exact (hinv.mem_iff x).mp hx
        · exact absurd hx hxk
      · intro hs
        exact Or.inl ((hinv.mem_iff x).mpr hs)
  · intro e he
    rcases mapInsert_mem he with he | he
    · rw [he]
    · exact le_trans (hinv.stamp_le e he) hT
  · rw [stamps_append]
    have hsk : stamps (mapInsert m k v now).2 [k] = [now] := by
      simp [stamps, mapInsert_get_self]
    have hse : stamps (mapInsert m k v now).2 l = stamps m l := stamps_congr hgete
    rw [hsk, hse, List.pairwise_append]
    refine ⟨hinv.mono, List.pairwise_singleton _ _, ?_⟩
    intro a ha b hb
    rw [List.mem_singleton] at hb
    subst hb
    exact le_trans (stamps_le hinv.stamp_le ha) hT

/-! ### Invariant preservation by the public mutating operations -/

theorem eraseIdx_findIdx_eq_erase {l : List α} {k : α} {i : Nat}
    (hidx : l.findIdx? (fun x => x = k) = some i) :
    l.eraseIdx i = l.erase k := by
  induction l generalizing i with
  | nil => cases hidx
  | cons a rest ih =>
    by_cases hk : a = k
    · subst hk
      rw [List.findIdx?_cons] at hidx
      simp only [decide_True, if_true, eq_self_iff_true, decide_eq_true_eq,
        ite_true] at hidx
      have : i = 0 := by
        injection hidx with h1
        exact h1.symm
      subst this
      rw [List.eraseIdx_cons_zero, List.erase_cons_head]
    · have hne : (decide (a = k)) = false := by simp [hk]
      rw [List.findIdx?_cons, hne] at hidx
      simp only [Bool.false_eq_true, if_false, List.findIdx?_succ] at hidx
      rcases hidx2 : rest.findIdx? (fun x => x = k) with _ | j
      · rw [hidx2] at hidx
        cases hidx
      · rw [hidx2] at hidx
        simp only [Option.map_some'] at hidx
        injection hidx with h1
        subst h1
        rw [List.eraseIdx_cons_succ, List.erase_cons_tail (by simpa using hk),
          ih hidx2]

theorem removeOp_inv {c : Cache α β} {T : Nat} (k : α)
    (hinv : StoreInv c.map c.list T) :
    StoreInv (removeOp c k).2.map (removeOp c k).2.list T ∧
      (removeOp c k).2.map.length ≤ c.map.length ∧
      (removeOp c k).2.capacity = c.capacity ∧
      (removeOp c k).2.ttl = c.ttl := by
  rcases hrm : mapRemove c.map k with ⟨o, m2⟩
  rcases o with _ | ⟨v, t⟩
  · have : removeOp c k = (none, c) := by
      simp only [removeOp, hrm]
    rw [this]
    exact ⟨hinv, le_refl _, rfl, rfl⟩
  · have hget : mapGet c.map k = some (v, t) := by
      rw [← mapRemove_fst, hrm]
    have hkin : k ∈ c.list := (hinv.mem_iff k).mpr (by rw [hget]; rfl)
    have hm2 : m2 = (mapRemove c.map k).2 := by rw [hrm]
    rcases hidx : c.list.findIdx? (fun x => x = k) with _ | i
    · exfalso
      rw [List.findIdx?_eq_none_iff] at hidx
      have := hidx k hkin
      simp at this
    · have hstep : removeOp c k =
          (some v, { c with map := m2, list := c.list.eraseIdx i }) := by
        simp only [removeOp, hrm, hidx]
      rw [hstep, eraseIdx_findIdx_eq_erase hidx]
      have hkeys := sorted_keysNodup hinv.sorted
      have hknotin : k ∉ c.list.erase k := hinv.nodup.not_mem_erase
      have hgete : ∀ x ∈ c.list.erase k, mapGet m2 x = mapGet c.map x := by
        intro x hx
        rw [hm2]
        exact mapGet_mapRemove_ne (fun he => hknotin (he ▸ hx))
      have hsub : m2.Sublist c.map := hm2 ▸ mapRemove_sublist c.map k
      refine ⟨⟨List.Pairwise.sublist hsub hinv.sorted, hinv.nodup.erase k,
        ?_, fun e he => hinv.stamp_le e (List.Sublist.mem he hsub), ?_⟩,
        hsub.length_le, rfl, rfl⟩
      · intro x
        by_cases hxk : x = k
        · subst hxk
          rw [hm2]
          rw [mapGet_mapRemove_self hkeys]
          simp [hknotin]
        · rw [List.mem_erase_of_ne hxk, hm2, mapGet_mapRemove_ne hxk]
          exact hinv.mem_iff x
      · rw [stamps_congr hgete]
        exact List.Pairwise.sublist
          (stamps_sublist_of_sublist (List.erase_sublist _ _)) hinv.mono

theorem clearOp_inv {c : Cache α β} {T : Nat} (hinv : StoreInv c.map c.list T) :
    StoreInv (clearOp c).map (clearOp c).list T := by
  refine ⟨List.Pairwise.nil, List.nodup_nil, ?_, ?_, ?_⟩
  · intro k
    simp [clearOp, mapGet]
  · intro e he
    simp [clearOp] at he
  · simp [clearOp, stamps]

/-- What a successful `notify_insert` guarantees: the invariant moves to
`now`, the capacity bound is preserved (and established outright for a new
key), the configuration is unchanged, and `k` is stored with value `v` and
timestamp `now`. -/
theorem notifyInsert_char {c : Cache α β} {T now : Nat} {k : α} {v : β}
    {r : Option β × List (α × β)} {c2 : Cache α β}
    (hinv : StoreInv c.map c.list T) (hT : T ≤ now)
    (h : notifyInsert c k v now = some (r, c2)) :
    StoreInv c2.map c2.list now ∧
      (c.map.length ≤ c.capacity → c2.map.length ≤ c.capacity) ∧
      c2.capacity = c.capacity ∧ c2.ttl = c.ttl ∧
      mapGet c2.map k = some (v, now) ∧
      (∀ ps c1, removeExpired c now = some (ps, c1) → mapGet c1.map k = none →
        c.capacity ≤ c1.map.length → c2.map.length = c.capacity) := by
  rcases hre : removeExpired c now with _ | ⟨e, c1⟩
  · simp [notifyInsert, hre] at h
  · simp only [notifyInsert, hre] at h
    obtain ⟨hinv1, hlen1, hcap1, httl1⟩ := removeExpired_inv now hinv hre
    by_cases hkin : (mapGet c1.map k).isSome = true
    · rw [if_pos hkin] at h
      injection h with h1
      have hc2 : c2 = { c1 with
          list := updateKey c1.list k
          map := (mapInsert c1.map k v now).2 } := (Prod.ext_iff.mp h1).2.symm
      subst hc2
      have hklist : k ∈ c1.list := (hinv1.mem_iff k).mpr hkin
      refine ⟨?_, ?_, hcap1, httl1, mapInsert_get_self, ?_⟩
      · exact touch_inv hinv1 hT (mapInsert_sorted hinv1.sorted)
          ⟨v, mapInsert_get_self⟩ (fun k' hk' => mapInsert_get_ne hk')
          (fun e he => by
            rcases mapInsert_mem he with he | he
            · rw [he]
            · exact le_trans (hinv1.stamp_le e he) hT)
          hklist
      · intro hb
        show (mapInsert c1.map k v now).2.length ≤ c.capacity
        rw [mapInsert_length_of_some hinv1.sorted hkin]
        exact le_trans hlen1 hb
      · intro ps0 c10 heq2 hget10 _
        injection heq2 with h2
        have hc10 : c10 = c1 := (Prod.ext_iff.mp h2).2.symm
        rw [hc10] at hget10
        rw [hget10] at hkin
        cases hkin
    · rw [if_neg hkin] at h
      rcases hrl : removeLru c1 with _ | c3
      · rw [hrl] at h
        simp at h
      · rw [hrl] at h
        injection h with h1
        have hc2 : c2 = { c3 with
            list := c3.list ++ [k]
            map := (mapInsert c3.map k v now).2 } := (Prod.ext_iff.mp h1).2.symm
        subst hc2
        obtain ⟨n, hlist3, hget3, hsub3, hinv3, hdisj3, hcap3, httl3⟩ :=
          removeLru_char hinv1 hrl
        have hknone : mapGet c3.map k = none := by
          rw [hget3 k]
          have hk1 : mapGet c1.map k = none := by
            cases hg : mapGet c1.map k
            · rfl
            · rw [hg] at hkin
              exact absurd rfl hkin
          by_cases hmem : k ∈ c1.list.take n
          · rw [if_pos hmem]
          · rw [if_neg hmem, hk1]
        refine ⟨append_inv hinv3 hT hknone, ?_, hcap3.trans hcap1,
          httl3.trans httl1, mapInsert_get_self, ?_⟩
        · intro _
          show (mapInsert c3.map k v now).2.length ≤ c.capacity
          rw [mapInsert_length_of_none hknone]
          rcases hdisj3 with ⟨hlt, hc31⟩ | ⟨_, _, heq⟩
          · subst hc31
            rw [← hcap1]
            omega
          · rw [← hcap1, ← hcap3]
            omega
        · intro ps0 c10 heq2 _ hfull
          injection heq2 with h2
          have hc10 : c10 = c1 := (Prod.ext_iff.mp h2).2.symm
          rw [hc10] at hfull
          show (mapInsert c3.map k v now).2.length = c.capacity
          rw [mapInsert_length_of_none hknone]
          rcases hdisj3 with ⟨hlt, _⟩ | ⟨_, _, heq⟩
          · rw [← hcap1] at hfull
            omega
          · rw [← hcap1, ← hcap3]
            omega

/-- What a successful `notify_get_mut` (and so `get`) guarantees. -/
theorem notifyGet_char {c : Cache α β} {T now : Nat} {k : α}
    {r : Option β × List (α × β)} {c2 : Cache α β}
    (hinv : StoreInv c.map c.list T) (hT : T ≤ now)
    (h : notifyGet c k now = some (r, c2)) :
    StoreInv c2.map c2.list now ∧ c2.map.length ≤ c.map.length ∧
      c2.capacity = c.capacity ∧ c2.ttl = c.ttl := by
  rcases hre : removeExpired c now with _ | ⟨e, c1⟩
  · simp [notifyGet, hre] at h
  · simp only [notifyGet, hre] at h
    obtain ⟨hinv1, hlen1, hcap1, httl1⟩ := removeExpired_inv now hinv hre
    rcases hg : mapGet c1.map k with _ | ⟨v, t⟩
    · rw [hg] at h
      injection h with h1
      have hc2 : c2 = c1 := (Prod.ext_iff.mp h1).2.symm
      subst hc2
      exact ⟨storeInv_mono_T hinv1 hT, hlen1, hcap1, httl1⟩
    · rw [hg] at h
      injection h with h1
      have hc2 : c2 = { c1 with
          list := updateKey c1.list k
          map := mapSetTime c1.map k now } := (Prod.ext_iff.mp h1).2.symm
      subst hc2
      have hklist : k ∈ c1.list := (hinv1.mem_iff k).mpr (by rw [hg]; rfl)
      refine ⟨?_, ?_, hcap1, httl1⟩
      · exact touch_inv hinv1 hT (mapSetTime_sorted hinv1.sorted)
          ⟨v, by rw [mapSetTime_get_self, hg]; rfl⟩
          (fun k' hk' => mapSetTime_get_ne hk')
          (fun e he => by
            rcases mapSetTime_mem he with he | ⟨w, s, he, _⟩
            · exact le_trans (hinv1.stamp_le e he) hT
            · rw [he])
          hklist
      · show (mapSetTime c1.map k now).length ≤ c.map.length
        rw [mapSetTime_length]
        exact hlen1

/-! ### Iterator steps preserve the invariant -/

theorem eraseIdx_eq_erase_of_nodup {l : List α} (hnd : l.Nodup) {i : Nat}
    (hi : i < l.length) : l.eraseIdx i = l.erase l[i] := by
  induction l generalizing i with
  | nil => cases hi
  | cons a rest ih =>
    rcases i with _ | j
    · rw [List.eraseIdx_cons_zero]
      simp only [List.getElem_cons_zero]
      rw [List.erase_cons_head]
    · rw [List.eraseIdx_cons_succ]
      simp only [List.getElem_cons_succ]
      have hj : j < rest.length := by simpa using hi
      have hanotin : a ∉ rest := (List.nodup_cons.mp hnd).1
      have hne : a ≠ rest[j] := fun he => hanotin (he ▸ List.getElem_mem hj)
      rw [List.erase_cons_tail (by simpa using hne),
        ih (List.nodup_cons.mp hnd).2 hj]

/-- Detaching a queue member forgets its queue slot but nothing else. -/
theorem detach_inv {m : MapT α β} {l : List α} {T : Nat} {k : α}
    (hinv : StoreInv m l T) (hkin : k ∈ l) :
    DetachedInv m (l.erase k) k T := by
  refine ⟨hinv.sorted, hinv.nodup.erase k, hinv.nodup.not_mem_erase, ?_,
    hinv.stamp_le, ?_, ?_⟩
  · intro x
    by_cases hxk : x = k
    · subst hxk
      constructor
      · intro _
        exact (hinv.mem_iff x).mp hkin
      · intro _
        exact Or.inr rfl
    · rw [List.mem_erase_of_ne hxk]
      constructor
      · intro hx
        rcases hx with hx | hx
        · exact (hinv.mem_iff x).mp hx
        · exact absurd hx hxk
      · intro hs
        exact Or.inl ((hinv.mem_iff x).mpr hs)
  · exact List.Pairwise.sublist
      (stamps_sublist_of_sublist (List.erase_sublist _ _)) hinv.mono
  · have := (hinv.mem_iff k).mp hkin
    rw [Option.isSome_iff_exists] at this
    obtain ⟨⟨v, t⟩, hv⟩ := this
    exact ⟨v, t, hv⟩

/-- Removing the detached key from the map re-couples the structures
(the expired-entry path of the touching iterators). -/
theorem detached_remove_inv {m : MapT α β} {l : List α} {T : Nat} {k : α}
    (hd : DetachedInv m l k T) :
    StoreInv (mapRemove m k).2 l T := by
  have hkeys := sorted_keysNodup hd.sorted
  have hsub := mapRemove_sublist m k
  have hgete : ∀ x ∈ l, mapGet (mapRemove m k).2 x = mapGet m x := by
    intro x hx
    exact mapGet_mapRemove_ne (fun he => hd.knotin (he ▸ hx))
  refine ⟨List.Pairwise.sublist hsub hd.sorted, hd.nodup, ?_,
    fun e he => hd.stamp_le e (List.Sublist.mem he hsub), ?_⟩
  · intro x
    by_cases hxk : x = k
    · subst hxk
      rw [mapGet_mapRemove_self hkeys]
      simp [hd.knotin]
    · rw [mapGet_mapRemove_ne hxk]
      constructor
      · intro hx
        exact (hd.mem_iff x).mp (Or.inl hx)
      · intro hs
        rcases (hd.mem_iff x).mpr hs with hx | hx
        · exact hx
        · exact absurd hx hxk
  · rw [stamps_congr hgete]
    exact hd.mono

/-- Re-appending the detached key at the queue back with timestamp `now`
re-couples the structures (the valid-entry path of the touching
iterators). -/
theorem detached_touch_inv {m : MapT α β} {l : List α} {T now : Nat} {k : α}
    (hd : DetachedInv m l k T) (hT : T ≤ now) :
    StoreInv (mapSetTime m k now) (l ++ [k]) now := by
  obtain ⟨v, t, hv⟩ := hd.self
  have hgete : ∀ x ∈ l, mapGet (mapSetTime m k now) x = mapGet m x := by
    intro x hx
    exact mapSetTime_get_ne (fun he => hd.knotin (he ▸ hx))
  refine ⟨mapSetTime_sorted hd.sorted, ?_, ?_, ?_, ?_⟩
  · rw [List.nodup_append]
    exact ⟨hd.nodup, List.nodup_singleton k,
      fun x hx hxk => hd.knotin ((List.mem_singleton.mp hxk) ▸ hx)⟩
  · intro x
    rw [List.mem_append, List.mem_singleton]
    by_cases hxk : x = k
    · subst hxk
      rw [mapSetTime_get_self, hv]
      simp
    · rw [mapSetTime_get_ne hxk]
      constructor
      · intro hx
        rcases hx with hx | hx
        · exact (hd.mem_iff x).mp (Or.inl hx)
        · exact absurd hx hxk
      · intro hs
        rcases (hd.mem_iff x).mpr hs with hx | hx
        · exact Or.inl hx
        · exact absurd hx hxk
  · intro e he
    rcases mapSetTime_mem he with he | ⟨w, s, he, _⟩
    · exact le_trans (hd.stamp_le e he) hT
    · rw [he]
  · rw [stamps_append]
    have hsk : stamps (mapSetTime m k now) [k] = [now] := by
      simp [stamps, mapSetTime_get_self, hv]
    have hse : stamps (mapSetTime m k now) l = stamps m l := stamps_congr hgete
    rw [hsk, hse, List.pairwise_append]
    refine ⟨hd.mono, List.pairwise_singleton _ _, ?_⟩
    intro a ha b hb
    rw [List.mem_singleton] at hb
    subst hb
    exact le_trans (stamps_le hd.stamp_le ha) hT

/-- Full characterization of `next_unexpired`: it keeps the TTL, never
grows the map, and its result state satisfies the store invariant (on a
`none` result) or the detached invariant for the returned key (on a `some`
result). -/
theorem iterNextUnexpired_char {T : Nat} (now : Nat) :
    ∀ (n : Nat) (s : IterSt α β), s.idx = n → StoreInv s.map s.list T →
    ((iterNextUnexpired s now).2.ttl = s.ttl ∧
      (iterNextUnexpired s now).2.map.length ≤ s.map.length) ∧
    ((iterNextUnexpired s now).1 = none →
      StoreInv (iterNextUnexpired s now).2.map (iterNextUnexpired s now).2.list T) ∧
    (∀ k, (iterNextUnexpired s now).1 = some k →
      DetachedInv (iterNextUnexpired s now).2.map (iterNextUnexpired s now).2.list
        k T) := by
  intro n
  induction n with
  | zero =>
    intro s hidx hinv
    have heq : iterNextUnexpired s now = (none, s) := by
      show nextUnexpiredGo s.map s.list s.ttl now s.idx = (none, s)
      rw [hidx]
      show (none, (⟨s.map, s.list, s.ttl, 0⟩ : IterSt α β)) = (none, s)
      rw [← hidx]
    rw [heq]
    exact ⟨⟨rfl, le_refl _⟩, fun _ => hinv, fun k hk => by cases hk⟩
  | succ i ih =>
    intro s hidx hinv
    rcases hk : s.list[i]? with _ | k
    · have heq : iterNextUnexpired s now = (none, { s with idx := i }) := by
        show nextUnexpiredGo s.map s.list s.ttl now s.idx = _
        rw [hidx]
        simp [nextUnexpiredGo, hk]
      rw [heq]
      exact ⟨⟨rfl, le_refl _⟩, fun _ => hinv, fun k hk2 => by cases hk2⟩
    · obtain ⟨hilt, hkel⟩ := List.getElem?_eq_some.mp hk
      have hkmem : k ∈ s.list := hkel ▸ List.getElem_mem hilt
      have herase : s.list.eraseIdx i = s.list.erase k := by
        rw [eraseIdx_eq_erase_of_nodup hinv.nodup hilt, hkel]
      have hdet : DetachedInv s.map (s.list.eraseIdx i) k T := by
        rw [herase]
        exact detach_inv hinv hkmem
      have hget : (mapGet s.map k).isSome = true := (hinv.mem_iff k).mp hkmem
      rw [Option.isSome_iff_exists] at hget
      obtain ⟨⟨v, t⟩, hgv⟩ := hget
      rcases httl : s.ttl with _ | d
      · have heq : iterNextUnexpired s now =
            (some k, { s with list := s.list.eraseIdx i, idx := i }) := by
          show nextUnexpiredGo s.map s.list s.ttl now s.idx = _
          rw [hidx, httl]
          simp [nextUnexpiredGo, hk, hgv]
        rw [heq]
        refine ⟨⟨httl, le_refl _⟩, fun hc => by simp at hc, fun k2 hk2 => ?_⟩
        have hk2k : k = k2 := by simpa using hk2
        subst hk2k
        exact hdet
      · by_cases hexp : t + d > now
        · have heq : iterNextUnexpired s now =
              (some k, { s with list := s.list.eraseIdx i, idx := i }) := by
            show nextUnexpiredGo s.map s.list s.ttl now s.idx = _
            rw [hidx, httl]
            simp [nextUnexpiredGo, hk, hgv, hexp]
          rw [heq]
          refine ⟨⟨httl, le_refl _⟩, fun hc => by simp at hc, fun k2 hk2 => ?_⟩
          have hk2k : k = k2 := by simpa using hk2
          subst hk2k
          exact hdet
        · have heq : iterNextUnexpired s now = iterNextUnexpired
              { s with
                map := (mapRemove s.map k).2
                list := s.list.eraseIdx i
                idx := i } now := by
            show nextUnexpiredGo s.map s.list s.ttl now s.idx = _
            rw [hidx, httl]
            simp [iterNextUnexpired, nextUnexpiredGo, hk, hgv, hexp]
          have hinv3 : StoreInv (mapRemove s.map k).2 (s.list.eraseIdx i) T :=
            detached_remove_inv hdet
          have hres := ih { s with
              map := (mapRemove s.map k).2
              list := s.list.eraseIdx i
              idx := i } rfl hinv3
          rw [heq]
          refine ⟨⟨hres.1.1.trans httl, ?_⟩, hres.2.1, hres.2.2⟩
          refine le_trans hres.1.2 ?_
          exact (mapRemove_sublist s.map k).length_le

/-- One `Iter::next` call preserves the store invariant (moving its clock
forward), the TTL, and never grows the map. -/
theorem iterNext_inv {s : IterSt α β} {T now : Nat} (hT : T ≤ now)
    (hinv : StoreInv s.map s.list T) :
    StoreInv (iterNext s now).2.map (iterNext s now).2.list now ∧
      (iterNext s now).2.ttl = s.ttl ∧
      (iterNext s now).2.map.length ≤ s.map.length := by
  obtain ⟨⟨httl, hlen⟩, hnone, hsome⟩ :=
    iterNextUnexpired_char now s.idx s rfl hinv
  rcases hun : iterNextUnexpired s now with ⟨o, s1⟩
  rw [hun] at httl hlen hnone hsome
  rcases o with _ | k
  · have heq : iterNext s now = (none, s1) := by
      simp [iterNext, hun]
    rw [heq]
    exact ⟨storeInv_mono_T (hnone rfl) hT, httl, hlen⟩
  · have hdet : DetachedInv s1.map s1.list k T := hsome k rfl
    obtain ⟨v, t, hv⟩ := hdet.self
    have heq : iterNext s now = (some (k, v),
        { s1 with list := s1.list ++ [k], map := mapSetTime s1.map k now }) := by
      simp [iterNext, hun, hv]
    rw [heq]
    refine ⟨detached_touch_inv hdet hT, httl, ?_⟩
    show (mapSetTime s1.map k now).length ≤ s.map.length
    rw [mapSetTime_length]
    exact hlen

/-- One `NotifyIter::next` call preserves the store invariant, the TTL,
and never grows the map. -/
theorem notifyIterNext_inv {s : IterSt α β} {T now : Nat} (hT : T ≤ now)
    (hinv : StoreInv s.map s.list T) :
    StoreInv (notifyIterNext s now).2.map (notifyIterNext s now).2.list now ∧
      (notifyIterNext s now).2.ttl = s.ttl ∧
      (notifyIterNext s now).2.map.length ≤ s.map.length := by
  rcases hidx : s.idx with _ | i
  · have heq : notifyIterNext s now = (none, s) := by
      simp [notifyIterNext, hidx]
    rw [heq]
    exact ⟨storeInv_mono_T hinv hT, rfl, le_refl _⟩
  · rcases hk : s.list[i]? with _ | k
    · have heq : notifyIterNext s now = (none, { s with idx := i }) := by
        simp [notifyIterNext, hidx, hk]
      rw [heq]
      exact ⟨storeInv_mono_T hinv hT, rfl, le_refl _⟩
    · obtain ⟨hilt, hkel⟩ := List.getElem?_eq_some.mp hk
      have hkmem : k ∈ s.list := hkel ▸ List.getElem_mem hilt
      have herase : s.list.eraseIdx i = s.list.erase k := by
        rw [eraseIdx_eq_erase_of_nodup hinv.nodup hilt, hkel]
      have hdet : DetachedInv s.map (s.list.eraseIdx i) k T := by
        rw [herase]
        exact detach_inv hinv hkmem
      have hget : (mapGet s.map k).isSome = true := (hinv.mem_iff k).mp hkmem
      rw [Option.isSome_iff_exists] at hget
      obtain ⟨⟨v, t⟩, hgv⟩ := hget
      by_cases hexp : ∃ d, s.ttl = some d ∧ t + d ≤ now
      · have heq : notifyIterNext s now = (some (.expired k v),
            { s with
              map := (mapRemove s.map k).2
              list := s.list.eraseIdx i
              idx := i }) := by
          simp [notifyIterNext, hidx, hk, hgv, hexp]
        rw [heq]
        refine ⟨storeInv_mono_T (detached_remove_inv hdet) hT, rfl, ?_⟩
        exact (mapRemove_sublist s.map k).length_le
      · have heq : notifyIterNext s now = (some (.valid k v),
            { s with
              list := s.list.eraseIdx i ++ [k]
              map := mapSetTime s.map k now
              idx := i }) := by
          simp [notifyIterNext, hidx, hk, hgv, hexp]
        rw [heq]
        refine ⟨detached_touch_inv hdet hT, rfl, ?_⟩
        show (mapSetTime s.map k now).length ≤ s.map.length
        rw [mapSetTime_length]

/-! ### The master invariant over all reachable states -/

theorem storeInv_nil : StoreInv ([] : MapT α β) [] 0 := by
  refine ⟨List.Pairwise.nil, List.nodup_nil, ?_, ?_, ?_⟩
  · intro k
    simp [mapGet]
  · intro e he
    cases he
  · simp [stamps]

theorem iterSteps_inv {s s2 : IterSt α β} {T T2 : Nat}
    (hsteps : IterSteps s T s2 T2) (hinv : StoreInv s.map s.list T) :
    StoreInv s2.map s2.list T2 ∧ s2.ttl = s.ttl ∧
      s2.map.length ≤ s.map.length ∧ T ≤ T2 := by
  induction hsteps with
  | refl => exact ⟨hinv, rfl, le_refl _, le_refl _⟩
  | step hst hle ih =>
    obtain ⟨hinv1, httl1, hlen1, hT1⟩ := ih
    obtain ⟨hinv2, httl2, hlen2⟩ := iterNext_inv hle hinv1
    exact ⟨hinv2, httl2.trans httl1, le_trans hlen2 hlen1, le_trans hT1 hle⟩

theorem notifyIterSteps_inv {s s2 : IterSt α β} {T T2 : Nat}
    (hsteps : NotifyIterSteps s T s2 T2) (hinv : StoreInv s.map s.list T) :
    StoreInv s2.map s2.list T2 ∧ s2.ttl = s.ttl ∧
      s2.map.length ≤ s.map.length ∧ T ≤ T2 := by
  induction hsteps with
  | refl => exact ⟨hinv, rfl, le_refl _, le_refl _⟩
  | step hst hle ih =>
    obtain ⟨hinv1, httl1, hlen1, hT1⟩ := ih
    obtain ⟨hinv2, httl2, hlen2⟩ := notifyIterNext_inv hle hinv1
    exact ⟨hinv2, httl2.trans httl1, le_trans hlen2 hlen1, le_trans hT1 hle⟩

/-- The central safety theorem: every state reachable through the public
interface satisfies the store invariant (key-set agreement between queue
and map, no duplicates, timestamps sorted along the queue and bounded by
the clock) together with the capacity bound on the value store. -/
theorem reachable_inv {c : Cache α β} {T : Nat} (h : Reachable c T) :
    StoreInv c.map c.list T ∧ c.map.length ≤ c.capacity := by
  induction h with
  | capacity cap => exact ⟨storeInv_nil, by simp [withCapacity]⟩
  | expiry d => exact ⟨storeInv_nil, by simp [withExpiryDuration]⟩
  | expiryCapacity d cap =>
    exact ⟨storeInv_nil, by simp [withExpiryDurationAndCapacity]⟩
  | insert k v hr hle heq ih =>
    obtain ⟨hinv, hlen⟩ := ih
    obtain ⟨hinv2, himp, hcap, _, _⟩ := notifyInsert_char hinv hle heq
    refine ⟨hinv2, ?_⟩
    rw [hcap]
    exact himp hlen
  | get k hr hle heq ih =>
    obtain ⟨hinv, hlen⟩ := ih
    obtain ⟨hinv2, hlen2, hcap, _⟩ := notifyGet_char hinv hle heq
    refine ⟨hinv2, ?_⟩
    rw [hcap]
    exact le_trans hlen2 hlen
  | remove k hr ih =>
    obtain ⟨hinv, hlen⟩ := ih
    obtain ⟨hinv2, hlen2, hcap, _⟩ := removeOp_inv k hinv
    refine ⟨hinv2, ?_⟩
    rw [hcap]
    exact le_trans hlen2 hlen
  | clearStep hr ih =>
    obtain ⟨hinv, hlen⟩ := ih
    refine ⟨clearOp_inv hinv, ?_⟩
    simp [clearOp]
  | iterRun hr hle hre hsteps ih =>
    obtain ⟨hinv, hlen⟩ := ih
    obtain ⟨hinv1, hlen1, hcap1, _⟩ := removeExpired_inv _ hinv hre
    obtain ⟨hinv2, _, hlen2, _⟩ :=
      iterSteps_inv hsteps (storeInv_mono_T hinv1 hle)
    refine ⟨hinv2, ?_⟩
    show _ ≤ _
    calc _ ≤ _ := hlen2
      _ ≤ _ := hlen1
      _ ≤ _ := hlen
  | notifyIterRun hr hsteps ih =>
    obtain ⟨hinv, hlen⟩ := ih
    obtain ⟨hinv2, _, hlen2, _⟩ := notifyIterSteps_inv hsteps hinv
    exact ⟨hinv2, le_trans hlen2 hlen⟩

/-! ### Totality of the panic-bearing operations under the invariant -/

theorem mapGet_of_mem {m : MapT α β} {k : α} {v : β} {t : Nat}
    (hnd : (mapKeys m).Nodup) (h : (k, v, t) ∈ m) :
    mapGet m k = some (v, t) := by
  induction m with
  | nil => cases h
  | cons e rest ih =>
    obtain ⟨a, w, s⟩ := e
    simp only [mapKeys, List.map_cons, List.nodup_cons] at hnd
    rcases List.mem_cons.mp h with hh | hh
    · injection hh with h1 h2
      subst h1
      simp [mapGet, ← h2]
    · have hka : k ≠ a := fun he =>
        hnd.1 (List.mem_map.mpr ⟨(k, v, t), hh, he⟩)
      simp only [mapGet, if_neg hka]
      exact ih hnd.2 hh

/-- The expiry sweep never panics on an invariant-satisfying state. -/
theorem removeExpired_some {c : Cache α β} {T : Nat}
    (hinv : StoreInv c.map c.list T) (now : Nat) :
    ∃ ps c2, removeExpired c now = some (ps, c2) := by
  have hmem : ∀ k ∈ c.list, (mapGet c.map k).isSome = true := fun k hk =>
    (hinv.mem_iff k).mp hk
  rcases httl : c.ttl with _ | d
  · exact ⟨[], c, removeExpired_none now httl hmem⟩
  · obtain ⟨ps, c2, heq, _⟩ :=
      removeExpired_spec now httl hmem (sorted_keysNodup hinv.sorted) hinv.nodup
    exact ⟨ps, c2, heq⟩

/-- `insert` never panics when the capacity is at least one. -/
theorem notifyInsert_total {c : Cache α β} {T : Nat}
    (hinv : StoreInv c.map c.list T) (hcap : 1 ≤ c.capacity)
    (k : α) (v : β) (now : Nat) :
    ∃ r c2, notifyInsert c k v now = some (r, c2) := by
  obtain ⟨ps, c1, hre⟩ := removeExpired_some hinv now
  obtain ⟨hinv1, _, hcap1, _⟩ := removeExpired_inv now hinv hre
  by_cases hkin : (mapGet c1.map k).isSome = true
  · have hs : (notifyInsert c k v now).isSome = true := by
      simp only [notifyInsert, hre, if_pos hkin]
      rfl
    rw [Option.isSome_iff_exists] at hs
    obtain ⟨x, hx⟩ := hs
    exact ⟨x.1, x.2, by rw [hx]⟩
  · obtain ⟨c3, hrl⟩ := removeLru_some hinv1 (hcap1 ▸ hcap)
    have hs : (notifyInsert c k v now).isSome = true := by
      simp only [notifyInsert, hre, if_neg hkin, hrl]
      rfl
    rw [Option.isSome_iff_exists] at hs
    obtain ⟨x, hx⟩ := hs
    exact ⟨x.1, x.2, by rw [hx]⟩

/-- `get` (and friends) never panic on an invariant-satisfying state. -/
theorem notifyGet_total {c : Cache α β} {T : Nat}
    (hinv : StoreInv c.map c.list T) (k : α) (now : Nat) :
    ∃ r c2, notifyGet c k now = some (r, c2) := by
  obtain ⟨ps, c1, hre⟩ := removeExpired_some hinv now
  have hs : (notifyGet c k now).isSome = true := by
    rcases hg : mapGet c1.map k with _ | ⟨v, t⟩ <;>
      simp only [notifyGet, hre, hg] <;> rfl
  rw [Option.isSome_iff_exists] at hs
  obtain ⟨x, hx⟩ := hs
  exact ⟨x.1, x.2, by rw [hx]⟩

/-- `len()` never exceeds the store size. -/
theorem lenOp_le {c : Cache α β} {T : Nat}
    (hinv : StoreInv c.map c.list T) (now : Nat) :
    lenOp c now ≤ c.map.length := by
  rcases httl : c.ttl with _ | d
  · simp only [lenOp, httl]
    exact le_of_eq (storeInv_length hinv)
  · simp only [lenOp, httl]
    rcases hfi : (c.list.filterMap (fun k => mapGet c.map k)).findIdx?
        (fun e => e.2 + d ≥ now) with _ | p
    · simp only [hfi]
      exact Nat.zero_le _
    · simp only [hfi]
      exact Nat.sub_le _ _

/-- A sweep over a store with no expired entries removes nothing. -/
theorem removeExpired_of_noExpired {c : Cache α β} {T : Nat}
    (hinv : StoreInv c.map c.list T) {now : Nat}
    (hne : NoExpired c.map c.ttl now) :
    removeExpired c now = some ([], c) := by
  rcases httl : c.ttl with _ | d
  · exact removeExpired_none now httl (fun k hk => (hinv.mem_iff k).mp hk)
  · have hloop : sweepLoop c.map c.list d now = some ([], c.map) := by
      rcases hl : c.list with _ | ⟨k0, rest⟩
      · rfl
      · have hk0 : k0 ∈ c.list := by rw [hl]; exact List.mem_cons_self _ _
        have := (hinv.mem_iff k0).mp hk0
        rw [Option.isSome_iff_exists] at this
        obtain ⟨⟨v0, t0⟩, hg0⟩ := this
        have hle : now ≤ t0 + d :=
          hne (k0, v0, t0) (mem_of_mapGet_eq_some hg0) d httl
        simp only [sweepLoop, hg0]
        rw [if_pos (by omega)]
    simp only [removeExpired, httl, hloop, List.length_nil, List.drop_zero,
      List.take_zero, List.zip_nil_right]
    rw [← httl]

/-- The small-step reachability facts for the concrete example caches. -/
theorem exCacheA_reachable : Reachable exCacheA 0 := by
  have h1 : notifyInsert (withCapacity 3 : Cache Nat Nat) 1 10 0
      = some ((none, []), ⟨[(1, 10, 0)], [1], 3, none⟩) := by decide
  have h2 : notifyInsert (⟨[(1, 10, 0)], [1], 3, none⟩ : Cache Nat Nat) 2 20 0
      = some ((none, []), exCacheA) := by decide
  exact Reachable.insert 2 20
    (Reachable.insert 1 10 (Reachable.capacity 3) (le_refl 0) h1) (le_refl 0) h2

theorem exCacheB_reachable : Reachable exCacheB 5 := by
  have h1 : notifyInsert (withExpiryDuration 100 : Cache Nat Nat) 1 10 0
      = some ((none, []), ⟨[(1, 10, 0)], [1], usizeMax, some 100⟩) := by decide
  have h2 : notifyInsert (⟨[(1, 10, 0)], [1], usizeMax, some 100⟩ : Cache Nat Nat)
      2 20 5 = some ((none, []), exCacheB) := by decide
  exact Reachable.insert 2 20
    (Reachable.insert 1 10 (Reachable.expiry 100) (le_refl 0) h1) (by omega) h2

theorem exCacheC_reachable : Reachable exCacheC 1 := by
  have h1 : notifyInsert (withCapacity 2 : Cache Nat Nat) 5 50 0
      = some ((none, []), ⟨[(5, 50, 0)], [5], 2, none⟩) := by decide
  have h2 : notifyInsert (⟨[(5, 50, 0)], [5], 2, none⟩ : Cache Nat Nat) 6 60 1
      = some ((none, []), exCacheC) := by decide
  exact Reachable.insert 6 60
    (Reachable.insert 5 50 (Reachable.capacity 2) (le_refl 0) h1) (by omega) h2

theorem exCacheD_reachable : Reachable exCacheD 0 := by
  have h1 : notifyInsert (withCapacity 1 : Cache Nat Nat) 5 50 0
      = some ((none, []), exCacheD) := by decide
  exact Reachable.insert 5 50 (Reachable.capacity 1) (le_refl 0) h1

/-! ### The claims -/

/-- C1: at the boundary of every public operation — after construction and
after any sequence of `insert`, `get`, `remove`, `clear`, `entry` (a
composition of the former) and completed or dropped traversals — the
Recency Queue holds no duplicate keys and its key set is exactly the key
set of the Value Store. -/
theorem C1_queue_key_set {c : Cache α β} {T : Nat} (h : Reachable c T) :
    c.list.Nodup ∧ (mapKeys c.map).Nodup ∧
      ∀ k, k ∈ c.list ↔ k ∈ mapKeys c.map := by
  obtain ⟨hinv, _⟩ := reachable_inv h
  exact ⟨hinv.nodup, sorted_keysNodup hinv.sorted,
    fun k => by rw [hinv.mem_iff k, mapGet_isSome_iff]⟩

theorem C1_witness :
    exCacheA.list.Nodup ∧ (mapKeys exCacheA.map).Nodup ∧
      ∀ k, k ∈ exCacheA.list ↔ k ∈ mapKeys exCacheA.map :=
  C1_queue_key_set exCacheA_reachable

/-- C2: in every reachable state with a TTL, the stored timestamps are
non-decreasing from the front of the Recency Queue to the back, and
consequently, for every `now`, the expired keys
(`LastTouched + time_to_live < now`) form a contiguous block at the queue
front (`filter` by expiry equals `takeWhile` by expiry). -/
theorem C2_expired_front_block {c : Cache α β} {T d : Nat}
    (h : Reachable c T) (hd : c.ttl = some d) :
    List.Pairwise (fun a b : Nat => a ≤ b) (stamps c.map c.list) ∧
      ∀ now, c.list.filter (expiredB c.map d now)
        = c.list.takeWhile (expiredB c.map d now) := by
  obtain ⟨hinv, _⟩ := reachable_inv h
  have _ := hd
  exact ⟨hinv.mono, fun now => expired_filter_eq_takeWhile
    (fun k hk => (hinv.mem_iff k).mp hk) hinv.mono⟩

theorem C2_witness :
    List.Pairwise (fun a b : Nat => a ≤ b) (stamps exCacheB.map exCacheB.list) ∧
      ∀ now, exCacheB.list.filter (expiredB exCacheB.map 100 now)
        = exCacheB.list.takeWhile (expiredB exCacheB.map 100 now) :=
  C2_expired_front_block exCacheB_reachable rfl

/-- C3: on a reachable cache with capacity at least 1, any `insert`
succeeds and leaves `len() ≤ capacity` (and the store itself within
capacity); moreover when the key is new and the store still holds at least
`capacity` entries after the expiry sweep, the capacity sweep evicts down
so that exactly `capacity` entries remain after the insertion. -/
theorem C3_capacity_bound {c : Cache α β} {T now : Nat} (h : Reachable c T)
    (hcap : 1 ≤ c.capacity) (hT : T ≤ now) (k : α) (v : β) :
    ∃ r c2, notifyInsert c k v now = some (r, c2) ∧
      lenOp c2 now ≤ c.capacity ∧ c2.map.length ≤ c.capacity ∧
      (∀ ps c1, removeExpired c now = some (ps, c1) →
        mapGet c1.map k = none → c.capacity ≤ c1.map.length →
        c2.map.length = c.capacity) := by
  obtain ⟨hinv, hlen⟩ := reachable_inv h
  obtain ⟨r, c2, heq⟩ := notifyInsert_total hinv hcap k v now
  obtain ⟨hinv2, himp, hcap2, _, _, hfull⟩ := notifyInsert_char hinv hT heq
  refine ⟨r, c2, heq, ?_, himp hlen, hfull⟩
  exact le_trans (lenOp_le hinv2 now) (himp hlen)

theorem C3_witness :
    ∃ r c2, notifyInsert exCacheA 5 50 1 = some (r, c2) ∧
      lenOp c2 1 ≤ exCacheA.capacity ∧
      c2.map.length ≤ exCacheA.capacity ∧
      (∀ ps c1, removeExpired exCacheA 1 = some (ps, c1) →
        mapGet c1.map 5 = none → exCacheA.capacity ≤ c1.map.length →
        c2.map.length = exCacheA.capacity) :=
  C3_capacity_bound exCacheA_reachable (by decide) (by omega) 5 50

/-- C4: on a reachable cache with a TTL, the expiry sweep succeeds and
removes exactly the entries of the expired front block of the queue: it
returns those key-value pairs in front-to-back (oldest-first) order, drops
exactly that block from the queue, removes exactly those keys from the
map, and every entry at or past the first non-expired one is left in place
and is itself non-expired. -/
theorem C4_sweep_exact {c : Cache α β} {T d : Nat} (h : Reachable c T)
    (hd : c.ttl = some d) (now : Nat) :
    ∃ ps c2, removeExpired c now = some (ps, c2) ∧
      ps = (c.list.takeWhile (expiredB c.map d now)).filterMap
        (fun k => (mapGet c.map k).map (fun p => (k, p.1))) ∧
      (∀ p ∈ ps, expiredB c.map d now p.1 = true) ∧
      c2.list = c.list.dropWhile (expiredB c.map d now) ∧
      (∀ k', mapGet c2.map k' =
        if k' ∈ c.list.takeWhile (expiredB c.map d now) then none
        else mapGet c.map k') ∧
      (∀ k' ∈ c2.list, expiredB c.map d now k' = false) := by
  obtain ⟨hinv, _⟩ := reachable_inv h
  have hmem : ∀ k ∈ c.list, (mapGet c.map k).isSome = true := fun k hk =>
    (hinv.mem_iff k).mp hk
  obtain ⟨ps, c2, heq, hps, hlist, hget2, _, _, _⟩ :=
    removeExpired_spec now hd hmem (sorted_keysNodup hinv.sorted) hinv.nodup
  refine ⟨ps, c2, heq, hps, ?_, hlist, hget2, ?_⟩
  · intro p hp
    rw [hps] at hp
    rcases List.mem_filterMap.mp hp with ⟨k, hk, hkp⟩
    rcases hg : mapGet c.map k with _ | q
    · rw [hg] at hkp
      cases hkp
    · rw [hg] at hkp
      injection hkp with h1
      have hp1 : p.1 = k := by rw [← h1]
      rw [hp1]
      exact List.mem_takeWhile_imp hk
  · intro k' hk'
    rw [hlist] at hk'
    exact dropWhile_not_expired hmem hinv.mono k' hk'

theorem C4_witness :
    ∃ ps c2, removeExpired exCacheB 200 = some (ps, c2) ∧
      ps = (exCacheB.list.takeWhile (expiredB exCacheB.map 100 200)).filterMap
        (fun k => (mapGet exCacheB.map k).map (fun p => (k, p.1))) ∧
      (∀ p ∈ ps, expiredB exCacheB.map 100 200 p.1 = true) ∧
      c2.list = exCacheB.list.dropWhile (expiredB exCacheB.map 100 200) ∧
      (∀ k', mapGet c2.map k' =
        if k' ∈ exCacheB.list.takeWhile (expiredB exCacheB.map 100 200) then none
        else mapGet exCacheB.map k') ∧
      (∀ k' ∈ c2.list, expiredB exCacheB.map 100 200 k' = false) :=
  C4_sweep_exact exCacheB_reachable rfl 200

/-- C8: `peek` is a pure function of the cache (it takes the cache
immutably and returns only an optional value, so no timestamp, queue
position or sweep effect is possible); it returns the stored value exactly
when the key is present and that single entry is not expired at `now`, and
`contains_key` is literally `peek(key).is_some()`. -/
theorem C8_peek_pure {c : Cache α β} (k : α) (now : Nat) :
    (∀ v, peek c k now = some v ↔
      ∃ t, mapGet c.map k = some (v, t) ∧
        ∀ d, c.ttl = some d → now ≤ t + d) ∧
    containsKey c k now = (peek c k now).isSome := by
  refine ⟨?_, rfl⟩
  intro v
  rcases hg : mapGet c.map k with _ | ⟨w, t⟩
  · simp [peek, hg]
  · rcases httl : c.ttl with _ | d
    · simp only [peek, hg, httl]
      constructor
      · intro hv
        injection hv with h1
        exact ⟨t, by rw [h1], fun d hd => by cases hd⟩
      · intro ⟨t2, ht2, _⟩
        injection ht2 with h1
        injection h1 with hw hte
        rw [hw]
    · simp only [peek, hg, httl]
      by_cases hexp : t + d ≥ now
      · rw [if_pos hexp]
        constructor
        · intro hv
          injection hv with h1
          exact ⟨t, by rw [h1], fun d2 hd2 => by injection hd2 with h2; omega⟩
        · intro ⟨t2, ht2, _⟩
          injection ht2 with h1
          injection h1 with hw hte
          rw [hw]
      · rw [if_neg hexp]
        constructor
        · intro hv
          cases hv
        · intro ⟨t2, ht2, hle⟩
          injection ht2 with h1
          injection h1 with hw hte
          have := hle d rfl
          omega

/-- C5 counterexample: in Scenario E (capacity 4; insert keys 2, 0, 3, 1
in that order), `peek_iter` yields keys in ascending key order
`[0, 1, 2, 3]` (the `BTreeMap` iteration order of the `PeekIter` in
lib.rs), not in the most-recently-used order `[1, 3, 0, 2]` the claim
asserts. -/
theorem C5_counterexample :
    (((insertOp (withCapacity 4 : Cache Nat Nat) 2 2 0).bind fun r1 =>
      (insertOp r1.2 0 0 1).bind fun r2 =>
      (insertOp r2.2 3 3 2).bind fun r3 =>
      (insertOp r3.2 1 1 3).map fun r4 =>
        (peekIterCollect r4.2 4).map Prod.fst) = some [0, 1, 2, 3]) ∧
      ([0, 1, 2, 3] : List Nat) ≠ [1, 3, 0, 2] := by
  decide

/-- C5 amended: `peek_iter` yields the entries in ascending key order (the
`BTreeMap` iteration order), skipping — without removing — the entries
that are expired at `now`; being a read-only borrow it mutates neither
timestamps nor queue positions.  In Scenario E it therefore yields keys
`[0, 1, 2, 3]`, while the touch iterator yields `[1, 3, 0, 2]`. -/
theorem C5_amended :
    (∀ (c : Cache α β) (now : Nat), peekIterCollect c now
      = (c.map.filter (fun e =>
          match c.ttl with
          | none => true
          | some d => decide (e.2.2 + d > now))).map (fun e => (e.1, e.2.1))) ∧
    (((insertOp (withCapacity 4 : Cache Nat Nat) 2 2 0).bind fun r1 =>
      (insertOp r1.2 0 0 1).bind fun r2 =>
      (insertOp r2.2 3 3 2).bind fun r3 =>
      (insertOp r3.2 1 1 3).map fun r4 =>
        ((peekIterCollect r4.2 4).map Prod.fst,
          (iterNew r4.2 4).map (fun s => (iterCollect s 4 10).map Prod.fst)))
      = some ([0, 1, 2, 3], some [1, 3, 0, 2])) := by
  refine ⟨?_, by decide⟩
  intro c now
  have haux : ∀ (ttl2 : Option Nat) (rem : MapT α β) (fuel : Nat),
      rem.length ≤ fuel →
      peekIterCollectAux rem ttl2 now fuel
        = (rem.filter (fun e =>
            match ttl2 with
            | none => true
            | some d => decide (e.2.2 + d > now))).map (fun e => (e.1, e.2.1)) := by
    intro ttl2 rem
    induction rem with
    | nil =>
      intro fuel _
      rcases fuel with _ | f
      · rfl
      · rfl
    | cons a rest ih =>
      intro fuel hfuel
      rcases fuel with _ | f
      · simp at hfuel
      · obtain ⟨ka, va, ta⟩ := a
        rcases ttl2 with _ | d
        · simp only [peekIterCollectAux, peekIterNext, List.filter_cons]
          simp only [ite_true]
          rw [List.map_cons]
          congr 1
          exact ih f (by simpa using hfuel)
        · by_cases hexp : ta + d > now
          · have hnext : peekIterNext ((ka, va, ta) :: rest) (some d) now
                = some ((ka, va), rest) := by
              simp [peekIterNext, hexp]
            simp only [peekIterCollectAux, hnext, List.filter_cons]
            rw [if_pos (by simpa using hexp), List.map_cons]
            congr 1
            exact ih f (by simpa using hfuel)
          · have hnext : peekIterNext ((ka, va, ta) :: rest) (some d) now
                = peekIterNext rest (some d) now := by
              simp [peekIterNext, hexp]
            have hstep : peekIterCollectAux ((ka, va, ta) :: rest) (some d) now (f + 1)
                = peekIterCollectAux rest (some d) now (f + 1) := by
              simp only [peekIterCollectAux, hnext]
            rw [hstep, List.filter_cons, if_neg (by simpa using hexp)]
            exact ih (f + 1) (le_trans (by simpa using hfuel) (Nat.le_succ _))
  exact haux c.ttl c.map (c.map.length + 1) (Nat.le_succ _)

/-- C6 counterexample: with TTL 500ms, after `insert(0, 7)` at 0ms and a
successful `get(0)` at 300ms, `peek(0)` at 600ms returns `Some 7` — not
`None` as the claim asserts — because `get` refreshed the entry timestamp
to 300ms. -/
theorem C6_counterexample :
    (((insertOp (withExpiryDuration 500 : Cache Nat Nat) 0 7 0).bind fun r1 =>
      (notifyGet r1.2 0 300).map fun r2 =>
        (r2.1.1, peek r2.2 0 600)) = some (some 7, some 7)) ∧
      (some 7 : Option Nat) ≠ none := by
  decide

/-- C6 amended: with TTL 500ms, `insert(0, 7)` at 0ms then `get(0)` at
300ms returns `Some` and refreshes the timestamp to 300ms, so the entry
expires only once 300 + 500 < now: `peek(0)` still returns `Some 7` at
600ms (elapsed since touch 300 ≤ 500) and returns `None` at 900ms
(elapsed since touch 600 > 500), exactly as the crate's own
`update_time_check` test records. -/
theorem C6_amended :
    ((insertOp (withExpiryDuration 500 : Cache Nat Nat) 0 7 0).bind fun r1 =>
      (notifyGet r1.2 0 300).map fun r2 =>
        (r2.1.1, peek r2.2 0 600, peek r2.2 0 900))
      = some (some 7, some 7, none) := by
  decide

/-- C9 counterexample: constructing with capacity zero is accepted, but
the very first `insert` of a new key then panics: `remove_lru` drains the
out-of-range range `..=map.len() - 0` of the queue
(`none` in this embedding models the panic), so "no public operation
panics" fails for capacity zero. -/
theorem C9_counterexample :
    notifyInsert (withCapacity 0 : Cache Nat Nat) 1 1 0 = none := by
  decide

/-- C9 amended: on every reachable state, absence is communicated by
`none`-style results and no public operation panics provided the capacity
is at least 1: `insert` and `get` always succeed (and with capacity
exactly 1, inserting a new distinct key evicts the sole existing entry,
leaving exactly the new key), while `remove`, `clear`, `peek`,
`contains_key`, `len` and `peek_iter` are total by construction.
Inserting a new key into a capacity-0 cache, however, panics. -/
theorem C9_amended {c : Cache α β} {T : Nat} (h : Reachable c T)
    (now : Nat) (hT : T ≤ now) (k : α) (v : β) :
    (1 ≤ c.capacity → ∃ r c2, notifyInsert c k v now = some (r, c2)) ∧
    (∃ r c2, notifyGet c k now = some (r, c2)) ∧
    (c.capacity = 1 → mapGet c.map k = none → c.ttl = none →
      ∃ r c2, notifyInsert c k v now = some (r, c2) ∧
        c2.list = [k] ∧ mapKeys c2.map = [k]) := by
  obtain ⟨hinv, hlen⟩ := reachable_inv h
  refine ⟨fun hcap => notifyInsert_total hinv hcap k v now,
    notifyGet_total hinv k now, ?_⟩
  intro hcap1 hknone httl
  obtain ⟨r, c2, heq⟩ := notifyInsert_total hinv (by omega) k v now
  have hre : removeExpired c now = some ([], c) :=
    removeExpired_of_noExpired hinv (fun e he d hd => by rw [httl] at hd; cases hd)
  obtain ⟨hinv2, himp, hcap2, httl2, hgetk, hfull⟩ := notifyInsert_char hinv hT heq
  have hc2pos : 1 ≤ c2.map.length := by
    have := mem_of_mapGet_eq_some hgetk
    rcases hm : c2.map with _ | ⟨e, rest⟩
    · rw [hm] at this
      cases this
    · simp [hm]
  have hc2len : c2.map.length = 1 := by
    have := himp hlen
    omega
  have hkeys2 : mapKeys c2.map = [k] := by
    rcases hm : c2.map with _ | ⟨e, rest⟩
    · rw [hm] at hc2len
      cases hc2len
    · have hrest : rest = [] := by
        rw [hm] at hc2len
        simpa using hc2len
      subst hrest
      rw [hm] at hgetk
      obtain ⟨a, w, t⟩ := e
      by_cases hka : k = a
      · subst hka
        simp [mapKeys]
      · simp [mapGet, hka] at hgetk
  refine ⟨r, c2, heq, ?_, hkeys2⟩
  have hmem2 : ∀ x, x ∈ c2.list ↔ x = k := by
    intro x
    rw [hinv2.mem_iff x, mapGet_isSome_iff, hkeys2]
    simp
  have hlen2 : c2.list.length = 1 := by
    rw [storeInv_length hinv2, hc2len]
  rcases hl : c2.list with _ | ⟨a, rest⟩
  · rw [hl] at hlen2
    cases hlen2
  · have hrest : rest = [] := by
      rw [hl] at hlen2
      simpa using hlen2
    subst hrest
    have : a = k := (hmem2 a).mp (by rw [hl]; exact List.mem_cons_self _ _)
    rw [this]

theorem C9_witness :
    (1 ≤ exCacheD.capacity →
      ∃ r c2, notifyInsert exCacheD 6 60 0 = some (r, c2)) ∧
    (∃ r c2, notifyGet exCacheD 6 0 = some (r, c2)) ∧
    (exCacheD.capacity = 1 → mapGet exCacheD.map 6 = none →
      exCacheD.ttl = none →
      ∃ r c2, notifyInsert exCacheD 6 60 0 = some (r, c2) ∧
        c2.list = [6] ∧ mapKeys c2.map = [6]) :=
  C9_amended exCacheD_reachable 0 (le_refl 0) 6 60

/-- C10: constructing the touch iterator via `iter()` already performs the
full expiry sweep — dropping the iterator without advancing it leaves
exactly the post-sweep cache, in which no expired entry remains — whereas
constructing the notify iterator via `notify_iter()` mutates neither the
map nor the queue, and a single `next()` that visits an expired entry
removes exactly that one entry from the map (all other keys keep their
entries). -/
theorem C10_iter_constructs {c : Cache α β} {T d now : Nat}
    (h : Reachable c T) (hd : c.ttl = some d) (hT : T ≤ now) :
    (∃ ps c2, removeExpired c now = some (ps, c2) ∧
      iterNew c now = some (notifyIterNew c2) ∧
      iterDrop (notifyIterNew c2) c.capacity = c2 ∧
      ∀ k v t, mapGet c2.map k = some (v, t) → now ≤ t + d) ∧
    ((notifyIterNew c).map = c.map ∧ (notifyIterNew c).list = c.list) ∧
    (∀ i k v t, c.list.length = i + 1 → c.list[i]? = some k →
      mapGet c.map k = some (v, t) → t + d ≤ now →
      notifyIterNext (notifyIterNew c) now
        = (some (.expired k v),
           ⟨(mapRemove c.map k).2, c.list.eraseIdx i, c.ttl, i⟩) ∧
      mapGet (mapRemove c.map k).2 k = none ∧
      (∀ k2, k2 ≠ k → mapGet (mapRemove c.map k).2 k2 = mapGet c.map k2)) := by
  obtain ⟨hinv, _⟩ := reachable_inv h
  have hmem : ∀ k ∈ c.list, (mapGet c.map k).isSome = true := fun k hk =>
    (hinv.mem_iff k).mp hk
  refine ⟨?_, ⟨rfl, rfl⟩, ?_⟩
  · obtain ⟨ps, c2, heq, hps, hlist, hget2, hsub, hcap2, httl2⟩ :=
      removeExpired_spec now hd hmem (sorted_keysNodup hinv.sorted) hinv.nodup
    refine ⟨ps, c2, heq, ?_, ?_, ?_⟩
    · simp only [iterNew, heq]
      rfl
    · show ({ map := c2.map
              list := c2.list
              capacity := c.capacity
              ttl := c2.ttl } : Cache α β) = c2
      rw [← hcap2]
    · intro k v t hgk
      have hks : (mapGet c2.map k).isSome = true := by rw [hgk]; rfl
      obtain ⟨hinv2, _, _, _⟩ := removeExpired_inv now hinv heq
      have hkl : k ∈ c2.list := (hinv2.mem_iff k).mpr hks
      rw [hlist] at hkl
      have hexp := dropWhile_not_expired hmem hinv.mono k hkl
      have hktw : k ∉ c.list.takeWhile (expiredB c.map d now) := by
        intro hktw
        have := List.mem_takeWhile_imp hktw
        rw [hexp] at this
        cases this
      have hgeq : mapGet c2.map k = mapGet c.map k := by
        rw [hget2 k, if_neg hktw]
      rw [hgeq] at hgk
      simp [expiredB, hgk] at hexp
      omega
  · intro i k v t hlen hki hget hexp
    have hstep : notifyIterNext (notifyIterNew c) now
        = (some (.expired k v),
           ⟨(mapRemove c.map k).2, c.list.eraseIdx i, c.ttl, i⟩) := by
      have hcond : ∃ d2, c.ttl = some d2 ∧ t + d2 ≤ now := ⟨d, hd, hexp⟩
      simp only [notifyIterNext, notifyIterNew, hlen, hki, hget, hcond, if_true]
    refine ⟨hstep, mapGet_mapRemove_self (sorted_keysNodup hinv.sorted), ?_⟩
    intro k2 hk2
    exact mapGet_mapRemove_ne hk2

theorem C10_witness :
    (∃ ps c2, removeExpired exCacheB 200 = some (ps, c2) ∧
      iterNew exCacheB 200 = some (notifyIterNew c2) ∧
      iterDrop (notifyIterNew c2) exCacheB.capacity = c2 ∧
      ∀ k v t, mapGet c2.map k = some (v, t) → 200 ≤ t + 100) ∧
    ((notifyIterNew exCacheB).map = exCacheB.map ∧
      (notifyIterNew exCacheB).list = exCacheB.list) ∧
    (∀ i k v t, exCacheB.list.length = i + 1 → exCacheB.list[i]? = some k →
      mapGet exCacheB.map k = some (v, t) → t + 100 ≤ 200 →
      notifyIterNext (notifyIterNew exCacheB) 200
        = (some (.expired k v),
           ⟨(mapRemove exCacheB.map k).2, exCacheB.list.eraseIdx i,
             exCacheB.ttl, i⟩) ∧
      mapGet (mapRemove exCacheB.map k).2 k = none ∧
      (∀ k2, k2 ≠ k →
        mapGet (mapRemove exCacheB.map k).2 k2 = mapGet exCacheB.map k2)) :=
  C10_iter_constructs exCacheB_reachable rfl (by omega)

/-- A key whose stored entry bears the current timestamp is visible to
`contains_key` at that same instant, whatever the TTL. -/
theorem containsKey_of_stamp_now {c : Cache α β} {k : α} {w : β} {now : Nat}
    (h : mapGet c.map k = some (w, now)) : containsKey c k now = true := by
  rcases httl : c.ttl with _ | d
  · simp [containsKey, peek, h, httl]
  · simp only [containsKey, peek, h, httl]
    rw [if_pos (by omega : now + d ≥ now)]
    rfl

/-- The core of the touch-renews property: starting from a store in which
the entry for `k` bears the current timestamp and only a short queue tail
sits behind `k`, inserting a list of fresh pairwise-distinct keys (all at
the same instant, the list short enough that together with the tail it
fits strictly below the capacity) succeeds and never evicts `k`. -/
theorem insertAll_keeps (cap : Nat) {k : α} (kvs : List (α × β)) :
    ∀ (s : Cache α β) (now : Nat),
      StoreInv s.map s.list now → s.capacity = cap → s.map.length ≤ cap →
      NoExpired s.map s.ttl now →
      (∃ w, mapGet s.map k = some (w, now)) →
      (∀ p ∈ kvs, mapGet s.map p.1 = none ∧ p.1 ≠ k) →
      (kvs.map Prod.fst).Nodup →
      (∃ pre post, s.list = pre ++ k :: post ∧
        kvs.length + post.length + 1 ≤ cap) →
      ∃ c2, insertAll s kvs now = some c2 ∧ containsKey c2 k now = true := by
  induction kvs with
  | nil =>
    intro s now _ _ _ _ hk _ _ _
    obtain ⟨w, hw⟩ := hk
    exact ⟨s, rfl, containsKey_of_stamp_now hw⟩
  | cons x rest ih =>
    obtain ⟨kx, vx⟩ := x
    intro s now hinv hcap hlen hne hk hnew hnd hshape
    obtain ⟨w, hw⟩ := hk
    obtain ⟨pre, post, hlist, hbound⟩ := hshape
    simp only [List.length_cons] at hbound
    obtain ⟨hxnone, hxk⟩ := hnew (kx, vx) (List.mem_cons_self _ _)
    have hre : removeExpired s now = some ([], s) :=
      removeExpired_of_noExpired hinv hne
    obtain ⟨c3, hrl⟩ := removeLru_some hinv (by omega)
    obtain ⟨n, hlist3, hget3, hsub3, hinv3, hdisj3, hcap3, httl3⟩ :=
      removeLru_char hinv hrl
    have hslen : s.list.length = s.map.length := storeInv_length hinv
    have hgetnone : ∀ k', mapGet s.map k' = none → mapGet c3.map k' = none := by
      intro k' h0
      by_cases hm : k' ∈ s.list.take n
      · rw [hget3 k', if_pos hm]
      · rw [hget3 k', if_neg hm, h0]
    obtain ⟨pre3, hlist3', hk3, hlen3'⟩ :
        ∃ pre3, c3.list = pre3 ++ k :: post ∧
          mapGet c3.map k = some (w, now) ∧ c3.map.length + 1 ≤ cap := by
      rcases hdisj3 with ⟨hlt, hc3s⟩ | ⟨hfull, hcapge, hlen3⟩
      · subst hc3s
        exact ⟨pre, hlist, hw, by omega⟩
      · have hpplen : s.list.length = pre.length + (post.length + 1) := by
          rw [hlist]
          simp
        have hc3len : c3.list.length = cap - 1 := by
          rw [storeInv_length hinv3]
          omega
        have hdroplen : c3.list.length = s.list.length - n := by
          rw [hlist3, List.length_drop]
        have hn1 : n = 1 := by omega
        have hprelen : 1 ≤ pre.length := by omega
        have hknotpre : k ∉ pre := by
          have hnd0 : (pre ++ k :: post).Nodup := hlist ▸ hinv.nodup
          rw [List.nodup_append] at hnd0
          exact fun hkpre => hnd0.2.2 hkpre (List.mem_cons_self _ _)
        have hknottake : k ∉ s.list.take n := by
          rw [hn1, hlist, List.take_append_of_le_length hprelen]
          intro hkmem
          exact hknotpre (List.Sublist.mem hkmem (List.take_sublist _ _))
        refine ⟨pre.drop 1, ?_, ?_, by omega⟩
        · rw [hlist3, hn1, hlist, List.drop_append_of_le_length hprelen]
        · rw [hget3 k, if_neg hknottake, hw]
    have hx3 : mapGet c3.map kx = none := hgetnone kx hxnone
    have heqni : notifyInsert s kx vx now =
        some (((mapInsert c3.map kx vx now).1.map (fun p => p.1), []),
          ⟨(mapInsert c3.map kx vx now).2, c3.list ++ [kx], c3.capacity,
            c3.ttl⟩) := by
      have hcond : ¬ ((mapGet s.map kx).isSome = true) := by
        rw [hxnone]
        simp
      simp only [notifyInsert, hre]
      rw [if_neg hcond, hrl]
    have hins : insertOp s kx vx now =
        some ((mapInsert c3.map kx vx now).1.map (fun p => p.1),
          ⟨(mapInsert c3.map kx vx now).2, c3.list ++ [kx], c3.capacity,
            c3.ttl⟩) := by
      simp only [insertOp, heqni]
    have hstep : insertAll s ((kx, vx) :: rest) now =
        insertAll (⟨(mapInsert c3.map kx vx now).2, c3.list ++ [kx],
          c3.capacity, c3.ttl⟩ : Cache α β) rest now := by
      simp only [insertAll, hins]
    have hinv4 : StoreInv (mapInsert c3.map kx vx now).2 (c3.list ++ [kx])
        now := append_inv hinv3 (le_refl now) hx3
    have hlen4 : (mapInsert c3.map kx vx now).2.length ≤ cap := by
      rw [mapInsert_length_of_none hx3]
      exact hlen3'
    have hne4 : ∀ e ∈ (mapInsert c3.map kx vx now).2, ∀ d,
        c3.ttl = some d → now ≤ e.2.2 + d := by
      intro e he d hd
      have hd2 : s.ttl = some d := by
        rw [← httl3]
        exact hd
      rcases mapInsert_mem he with he1 | he1
      · subst he1
        show now ≤ now + d
        omega
      · exact hne e (List.Sublist.mem he1 hsub3) d hd2
    have hk4 : mapGet (mapInsert c3.map kx vx now).2 k = some (w, now) := by
      rw [mapInsert_get_ne (fun he => hxk he.symm), hk3]
    have hnew4 : ∀ p ∈ rest,
        mapGet (mapInsert c3.map kx vx now).2 p.1 = none ∧ p.1 ≠ k := by
      intro p hp
      obtain ⟨hpnone, hpk⟩ := hnew p (List.mem_cons_of_mem _ hp)
      refine ⟨?_, hpk⟩
      have hpkx : p.1 ≠ kx := by
        intro hpe
        have hkxin : kx ∈ rest.map Prod.fst :=
          hpe ▸ List.mem_map.mpr ⟨p, hp, rfl⟩
        exact (List.nodup_cons.mp hnd).1 hkxin
      rw [mapInsert_get_ne hpkx]
      exact hgetnone p.1 hpnone
    have hshape4 : (⟨(mapInsert c3.map kx vx now).2, c3.list ++ [kx],
        c3.capacity, c3.ttl⟩ : Cache α β).list = pre3 ++ k :: (post ++ [kx]) := by
      show c3.list ++ [kx] = pre3 ++ k :: (post ++ [kx])
      rw [hlist3']
      simp
    have hql : (post ++ [kx]).length = post.length + 1 := by simp
    obtain ⟨c5, hall, hcont⟩ := ih
      (⟨(mapInsert c3.map kx vx now).2, c3.list ++ [kx], c3.capacity,
        c3.ttl⟩ : Cache α β) now
      hinv4 (hcap3.trans hcap) hlen4 hne4 ⟨w, hk4⟩ hnew4
      (List.nodup_cons.mp hnd).2
      ⟨pre3, post ++ [kx], hshape4, by omega⟩
    exact ⟨c5, by rw [hstep, hall], hcont⟩

/-- C7 counterexample: the claimed count of rescuing inserts is off by
one.  With capacity 1, after `insert(5, 5)` a successful `get(5)` (it
returns `Some`) followed by `insert` of one other new key — that is,
`capacity` distinct new keys — leaves `contains_key(&5)` false: the
capacity sweep of the last insert evicts `5` despite the touch. -/
theorem C7_counterexample :
    ((insertOp (withCapacity 1 : Cache Nat Nat) 5 5 0).bind (fun r1 =>
      (notifyGet r1.2 5 0).bind (fun r2 =>
        (insertOp r2.2 6 6 0).map (fun r3 =>
          (r2.1.1.isSome, containsKey r3.2 5 0))))) = some (true, false) := by
  decide

/-- C7 (amended): on every reachable cache, a successful `get(k)` of a
present unexpired key `k`, immediately followed by `insert` of at most
`capacity - 1` pairwise-distinct fresh keys all at the same instant,
leaves `k` still present — the touch moves `k` to the queue back, so each
of those inserts evicts an older entry instead.  (With `capacity` fresh
inserts, as the original claim has it, the last insert evicts `k`: see
the counterexample.) -/
theorem C7_amended {c : Cache α β} {T now : Nat} (h : Reachable c T)
    (hT : T ≤ now) {k : α} (hk : containsKey c k now = true)
    {kvs : List (α × β)} (hnd : (kvs.map Prod.fst).Nodup)
    (hnew : ∀ p ∈ kvs, mapGet c.map p.1 = none ∧ p.1 ≠ k)
    (hlen : kvs.length + 1 ≤ c.capacity) :
    ∃ r c1, notifyGet c k now = some (r, c1) ∧ r.1.isSome = true ∧
      ∃ c2, insertAll c1 kvs now = some c2 ∧ containsKey c2 k now = true := by
  obtain ⟨hinv, hcaplen⟩ := reachable_inv h
  have hmem : ∀ k' ∈ c.list, (mapGet c.map k').isSome = true := fun k' hk' =>
    (hinv.mem_iff k').mp hk'
  rcases hg : mapGet c.map k with _ | ⟨v0, t0⟩
  · simp [containsKey, peek, hg] at hk
  · rcases httl : c.ttl with _ | d
    · -- no TTL: the sweep is the identity
      have hkin : k ∈ c.list := (hinv.mem_iff k).mpr (by rw [hg]; rfl)
      have hre : removeExpired c now = some ([], c) :=
        removeExpired_none now httl hmem
      have heqg : notifyGet c k now = some ((some v0, []),
          ⟨mapSetTime c.map k now, updateKey c.list k, c.capacity, c.ttl⟩) := by
        simp only [notifyGet, hre, hg]
      have hchar := notifyGet_char hinv hT heqg
      have hk1 : mapGet (mapSetTime c.map k now) k = some (v0, now) := by
        rw [mapSetTime_get_self, hg]
        rfl
      have hne1 : ∀ e ∈ mapSetTime c.map k now, ∀ d',
          c.ttl = some d' → now ≤ e.2.2 + d' := by
        intro e he d' hd'
        rw [httl] at hd'
        cases hd'
      have hnew1 : ∀ p ∈ kvs,
          mapGet (mapSetTime c.map k now) p.1 = none ∧ p.1 ≠ k := by
        intro p hp
        refine ⟨?_, (hnew p hp).2⟩
        rw [mapSetTime_get_ne (hnew p hp).2]
        exact (hnew p hp).1
      have hshape1 : (⟨mapSetTime c.map k now, updateKey c.list k, c.capacity,
          c.ttl⟩ : Cache α β).list = c.list.erase k ++ k :: [] := by
        show updateKey c.list k = c.list.erase k ++ [k]
        exact updateKey_eq hkin
      have h0 : ([] : List α).length = 0 := rfl
      obtain ⟨c2, hall, hcont⟩ := insertAll_keeps c.capacity kvs
        (⟨mapSetTime c.map k now, updateKey c.list k, c.capacity,
          c.ttl⟩ : Cache α β) now
        hchar.1 rfl (le_trans hchar.2.1 hcaplen) hne1 ⟨v0, hk1⟩ hnew1 hnd
        ⟨c.list.erase k, [], hshape1, by omega⟩
      exact ⟨(some v0, []), _, heqg, rfl, c2, hall, hcont⟩
    · -- TTL set: the sweep removes exactly the expired front block,
      -- which cannot contain the unexpired key k
      obtain ⟨ps, c1, heq, hps, hlist1, hget1, hsub1, hcap1, httl1⟩ :=
        removeExpired_spec now httl hmem (sorted_keysNodup hinv.sorted)
          hinv.nodup
      have hcond : now ≤ t0 + d := by
        by_contra hlt
        have hfalse : containsKey c k now = false := by
          simp only [containsKey, peek, hg, httl]
          rw [if_neg hlt]
          rfl
        rw [hfalse] at hk
        cases hk
      have hktw : k ∉ c.list.takeWhile (expiredB c.map d now) := by
        intro hkmem
        have hexp := List.mem_takeWhile_imp hkmem
        simp only [expiredB, hg, decide_eq_true_eq] at hexp
        omega
      have hgk1 : mapGet c1.map k = some (v0, t0) := by
        rw [hget1 k, if_neg hktw, hg]
      have heqg : notifyGet c k now = some ((some v0, ps),
          ⟨mapSetTime c1.map k now, updateKey c1.list k, c1.capacity,
            c1.ttl⟩) := by
        simp only [notifyGet, heq, hgk1]
      have hchar := notifyGet_char hinv hT heqg
      have hinvc1 : StoreInv c1.map c1.list T := (removeExpired_inv now hinv heq).1
      have hkin1 : k ∈ c1.list := (hinvc1.mem_iff k).mpr (by rw [hgk1]; rfl)
      have happ : c.list.takeWhile (expiredB c.map d now) ++
          c.list.dropWhile (expiredB c.map d now) = c.list :=
        List.takeWhile_append_dropWhile _ _
      have hnotintw : ∀ x ∈ c.list.dropWhile (expiredB c.map d now),
          x ∉ c.list.takeWhile (expiredB c.map d now) := by
        have hnd2 : (c.list.takeWhile (expiredB c.map d now) ++
            c.list.dropWhile (expiredB c.map d now)).Nodup := by
          rw [happ]
          exact hinv.nodup
        rcases List.nodup_append.mp hnd2 with ⟨_, _, hdisj⟩
        exact fun x hx htx => hdisj htx hx
      have hk1 : mapGet (mapSetTime c1.map k now) k = some (v0, now) := by
        rw [mapSetTime_get_self, hgk1]
        rfl
      have hne1 : ∀ e ∈ mapSetTime c1.map k now, ∀ d',
          c1.ttl = some d' → now ≤ e.2.2 + d' := by
        intro e he d' hd'
        have hd'd : d' = d := by
          rw [httl1, httl] at hd'
          injection hd' with h1
          exact h1.symm
        rw [hd'd]
        rcases mapSetTime_mem he with he1 | ⟨w1, s1, he1, _⟩
        · have hgete : mapGet c1.map e.1 = some (e.2.1, e.2.2) :=
            mapGet_of_mem (sorted_keysNodup hinvc1.sorted) he1
          have hein : e.1 ∈ c1.list :=
            (hinvc1.mem_iff e.1).mpr (by rw [hgete]; rfl)
          have heindw : e.1 ∈ c.list.dropWhile (expiredB c.map d now) := by
            rw [← hlist1]
            exact hein
          have hnexp := dropWhile_not_expired hmem hinv.mono e.1 heindw
          have hgetce : mapGet c.map e.1 = some (e.2.1, e.2.2) := by
            rw [hget1 e.1, if_neg (hnotintw e.1 heindw)] at hgete
            exact hgete
          simp only [expiredB, hgetce, decide_eq_false_iff_not] at hnexp
          omega
        · rw [he1]
          show now ≤ now + d
          omega
      have hnew1 : ∀ p ∈ kvs,
          mapGet (mapSetTime c1.map k now) p.1 = none ∧ p.1 ≠ k := by
        intro p hp
        refine ⟨?_, (hnew p hp).2⟩
        rw [mapSetTime_get_ne (hnew p hp).2, hget1 p.1]
        by_cases hm : p.1 ∈ c.list.takeWhile (expiredB c.map d now)
        · rw [if_pos hm]
        · rw [if_neg hm]
          exact (hnew p hp).1
      have hshape1 : (⟨mapSetTime c1.map k now, updateKey c1.list k,
          c1.capacity, c1.ttl⟩ : Cache α β).list =
          c1.list.erase k ++ k :: [] := by
        show updateKey c1.list k = c1.list.erase k ++ [k]
        exact updateKey_eq hkin1
      have hcapE : (⟨mapSetTime c1.map k now, updateKey c1.list k,
          c1.capacity, c1.ttl⟩ : Cache α β).capacity = c.capacity := by
        show c1.capacity = c.capacity
        exact hcap1
      have h0 : ([] : List α).length = 0 := rfl
      obtain ⟨c2, hall, hcont⟩ := insertAll_keeps c.capacity kvs
        (⟨mapSetTime c1.map k now, updateKey c1.list k, c1.capacity,
          c1.ttl⟩ : Cache α β) now
        hchar.1 hcapE (le_trans hchar.2.1 hcaplen) hne1 ⟨v0, hk1⟩ hnew1 hnd
        ⟨c1.list.erase k, [], hshape1, by omega⟩
      exact ⟨(some v0, ps), _, heqg, rfl, c2, hall, hcont⟩

/-- C7 witness: on the concrete capacity-2 cache holding keys 5 and 6, a
`get(5)` at time 1 followed by one fresh insert (`capacity - 1 = 1` new
key, namely 7) leaves key 5 present. -/
theorem C7_witness :
    ∃ r c1, notifyGet exCacheC 5 1 = some (r, c1) ∧ r.1.isSome = true ∧
      ∃ c2, insertAll c1 [(7, 70)] 1 = some c2 ∧ containsKey c2 5 1 = true :=
  C7_amended exCacheC_reachable (le_refl 1) (by decide) (by decide)
    (by decide) (by decide)

end LruTimeCache
